import Mathlib

/-!
# Verification of the usAge transcript cleaning / POS adjustment pipeline

This development is a shallow embedding, over `List Char`, of the parts of the
LiNCS-lab/usAge repository that the specification claims talk about:

* `src/utils/cleaning_util.py` (the marker pattern library),
* `src/multilingual-text-normalizer.py` (`clean_transcription`, the per-file
  ratio computation of `process_corpus`),
* `src/utils/corpus_util.py` (`extract_participant_info`),
* `src/english-pos-adjustment.py` (`compose_tagging`, `extract_looks_like`,
  `identify_auxiliary_verbs`, `adjust_pos_tags`) together with the `Tag`
  class of `src/utils/nlp_util.py`.

The Python code works on strings through `re`; every regular expression used
by those functions is embedded here as a dedicated character-list scanner
whose behaviour (leftmost match, alternation order, greedy/lazy backtracking,
non-overlapping global substitution) mirrors the Python `re` semantics for
that particular pattern.  The embedding models transcript *lines*: strings
that do not contain a newline character (chat lines come from
`split('\n')`), which is the domain on which the `.`-wildcard patterns used
by the code are exercised.  Scanners that do not consume a fixed amount of
input per step take an explicit fuel argument (always instantiated with
`length + 1`, which is proved or argued sufficient below) so that all
definitions are executable and kernel-reducible.

Python exceptions (`AttributeError`, `TypeError`, `ZeroDivisionError`) are
modelled with `Except PyErr`.
-/

/-- Python exceptions that the embedded code can raise. -/
inductive PyErr where
  | attributeError
  | typeError
  | zeroDivisionError
deriving DecidableEq, Repr

/-- Decidable equality for `Except`, used to evaluate the embedded
functions at concrete inputs. -/
instance exceptDecEq {ε α : Type} [DecidableEq ε] [DecidableEq α] :
    DecidableEq (Except ε α) := fun a b =>
  match a, b with
  | .ok x, .ok y =>
    if h : x = y then .isTrue (h ▸ rfl)
    else .isFalse (fun hc => h (Except.ok.inj hc))
  | .error e, .error f =>
    if h : e = f then .isTrue (h ▸ rfl)
    else .isFalse (fun hc => h (Except.error.inj hc))
  | .ok _, .error _ => .isFalse (fun hc => Except.noConfusion hc)
  | .error _, .ok _ => .isFalse (fun hc => Except.noConfusion hc)

/-- The apostrophe character (spelled via its code point). -/
def apos : Char := Char.ofNat 39

/-- The `\x15` control character appearing in the marker regex of
`remove_markers_and_symbols` (cleaning_util.py line 195). -/
def nak : Char := Char.ofNat 21

/-- Python `\s` for the ASCII range: space, tab, newline, carriage return,
vertical tab, form feed. -/
def isPyWs (c : Char) : Bool :=
  c = ' ' || c = Char.ofNat 9 || c = Char.ofNat 10 || c = Char.ofNat 13 ||
  c = Char.ofNat 11 || c = Char.ofNat 12

def isAsciiLower (c : Char) : Bool := 97 ≤ c.toNat && c.toNat ≤ 122

def isAsciiUpper (c : Char) : Bool := 65 ≤ c.toNat && c.toNat ≤ 90

def isAsciiLetter (c : Char) : Bool := isAsciiLower c || isAsciiUpper c

def isAsciiDigit (c : Char) : Bool := 48 ≤ c.toNat && c.toNat ≤ 57

/-- The `À-ÿ` character range (code points 0xC0–0xFF) used literally by
several character classes in cleaning_util.py. -/
def isLatin1Sup (c : Char) : Bool := 0xC0 ≤ c.toNat && c.toNat ≤ 0xFF

/-- Python `\w` (word character) restricted to the Latin-1 letters that can
occur in these transcripts: ASCII alphanumerics, underscore, and the
Latin-1 supplement letters (0xC0–0xFF without × and ÷), plus ª µ º Œ œ Ÿ. -/
def isWordChar (c : Char) : Bool :=
  isAsciiLetter c || isAsciiDigit c || c = '_' ||
  (isLatin1Sup c && c.toNat ≠ 0xD7 && c.toNat ≠ 0xF7) ||
  c.toNat = 0xAA || c.toNat = 0xB5 || c.toNat = 0xBA ||
  c.toNat = 0x152 || c.toNat = 0x153 || c.toNat = 0x178

/-! ## `remove_pauses` (cleaning_util.py lines 8–46)

`clean = re.sub(r'\s\s+', ' ', dialog)` followed by counting and removing
`\(\.\)`, `\(\.\.\)`, `\(\.\.\.\)` and `\(\.\.\.(\.+)\)` in that order. -/

/-- `re.sub(r'\s\s+', ' ', s)`: every maximal run of two or more whitespace
characters is replaced by a single space (fuelled scanner). -/
def squeezeF : Nat → List Char → List Char
  | 0, s => s
  | fuel + 1, a :: b :: rest =>
    if isPyWs a && isPyWs b then ' ' :: squeezeF fuel (rest.dropWhile isPyWs)
    else a :: squeezeF fuel (b :: rest)
  | _ + 1, s => s

/-- The whitespace squeeze performed at the entry of every cleaning pass. -/
def squeeze (s : List Char) : List Char := squeezeF (s.length + 1) s

/-- Count and remove every occurrence of the literal `(.)` (short pauses). -/
def scanShort : List Char → List Char × Nat
  | '(' :: '.' :: ')' :: rest =>
    let r := scanShort rest; (r.1, r.2 + 1)
  | c :: rest =>
    let r := scanShort rest; (c :: r.1, r.2)
  | [] => ([], 0)

/-- Count and remove every occurrence of the literal `(..)` (medium pauses). -/
def scanMedium : List Char → List Char × Nat
  | '(' :: '.' :: '.' :: ')' :: rest =>
    let r := scanMedium rest; (r.1, r.2 + 1)
  | c :: rest =>
    let r := scanMedium rest; (c :: r.1, r.2)
  | [] => ([], 0)

/-- Count and remove every occurrence of the literal `(...)` (long pauses). -/
def scanLong : List Char → List Char × Nat
  | '(' :: '.' :: '.' :: '.' :: ')' :: rest =>
    let r := scanLong rest; (r.1, r.2 + 1)
  | c :: rest =>
    let r := scanLong rest; (c :: r.1, r.2)
  | [] => ([], 0)

/-- Count and remove every occurrence of `\(\.\.\.(\.+)\)`: a parenthesized
run of at least four dots (other pauses).  On a failed `(` the scan moves on
by one character, as `re` does. -/
def scanOtherF : Nat → List Char → List Char × Nat
  | 0, s => (s, 0)
  | fuel + 1, '(' :: rest =>
    let dots := rest.takeWhile (· = '.')
    let after := rest.dropWhile (· = '.')
    if 4 ≤ dots.length ∧ after.head? = some ')' then
      let r := scanOtherF fuel after.tail; (r.1, r.2 + 1)
    else
      let r := scanOtherF fuel rest; ('(' :: r.1, r.2)
  | fuel + 1, c :: rest =>
    let r := scanOtherF fuel rest; (c :: r.1, r.2)
  | _ + 1, [] => ([], 0)

/-- The pause-count record returned by `remove_pauses`. -/
structure PauseCounts where
  nbPausesTotal : Nat
  nbPausesShort : Nat
  nbPausesMedium : Nat
  nbPausesLong : Nat
  nbPausesOther : Nat
deriving DecidableEq, Repr

/-- `remove_pauses` (cleaning_util.py lines 8–46): squeeze whitespace, then
count and strip the four pause markers in order, accumulating the total. -/
def remove_pauses (dialog : List Char) : List Char × PauseCounts :=
  let clean := squeeze dialog
  let s1 := scanShort clean
  let s2 := scanMedium s1.1
  let s3 := scanLong s2.1
  let s4 := scanOtherF (s3.1.length + 1) s3.1
  (s4.1, ⟨0 + s1.2 + s2.2 + s3.2 + s4.2, s1.2, s2.2, s3.2, s4.2⟩)

/-! ## `remove_parentheses` (cleaning_util.py lines 49–55) -/

/-- `remove_parentheses`: squeeze whitespace, then delete every `(` and `)`. -/
def remove_parentheses (dialog : List Char) : List Char :=
  (squeeze dialog).filter (fun c => !(c = '(' || c = ')'))

/-! ## `remove_incomplete_words_and_phrases` (cleaning_util.py lines 103–115) -/

/-- The character class `[a-zA-Z0-9À-ÿ_+-]` of the incomplete-word pattern. -/
def isAmpClass (c : Char) : Bool :=
  isAsciiLetter c || isAsciiDigit c || isLatin1Sup c || c = '_' || c = '+' || c = '-'

/-- Count and remove every occurrence of `&([a-zA-Z0-9À-ÿ_+-]+)`: an
ampersand followed by a non-empty run of word-ish characters. -/
def ampScanF : Nat → List Char → List Char × Nat
  | 0, s => (s, 0)
  | fuel + 1, '&' :: rest =>
    let run := rest.takeWhile isAmpClass
    if run.length ≠ 0 then
      let r := ampScanF fuel (rest.dropWhile isAmpClass); (r.1, r.2 + 1)
    else
      let r := ampScanF fuel rest; ('&' :: r.1, r.2)
  | fuel + 1, c :: rest =>
    let r := ampScanF fuel rest; (c :: r.1, r.2)
  | _ + 1, [] => ([], 0)

/-- Count every occurrence of `\.\.\.` and replace each with a single dot. -/
def ellipsisScan : List Char → List Char × Nat
  | '.' :: '.' :: '.' :: rest =>
    let r := ellipsisScan rest; ('.' :: r.1, r.2 + 1)
  | c :: rest =>
    let r := ellipsisScan rest; (c :: r.1, r.2)
  | [] => ([], 0)

/-- `remove_incomplete_words_and_phrases` (cleaning_util.py lines 103–115):
squeeze, strip `&`-marked incomplete words, collapse `...` to `.`, returning
`(text, incomplete word count, incomplete phrase count)`. -/
def remove_incomplete_words_and_phrases (dialog : List Char) :
    List Char × Nat × Nat :=
  let clean := squeeze dialog
  let a := ampScanF (clean.length + 1) clean
  let e := ellipsisScan a.1
  (e.1, a.2, e.2)

/-! ## `remove_errors` (cleaning_util.py lines 118–136)

Two `while re.search` loops.  CASE 1 uses `(.*)<.+?>\s\[:(.+?)\](.*)` with
replacement `\1\2\3`; CASE 2 uses `(.*?)([a-zA-Z0-9À-ÿ_\']+?)\s\[:(.+?)\](.*)`
with replacement `\1\3\4`.  On a single line either pattern, when it matches
at all, matches the whole string (its leading and trailing `(.*)` groups
absorb the rest), so each `re.sub` performs exactly one rewrite of the whole
string; the `while` loop repeats the rewrite until the pattern no longer
matches. -/

/-- The char class `[a-zA-Z0-9À-ÿ_\']` of the single-word correction
pattern. -/
def isErrWordClass (c : Char) : Bool :=
  isAsciiLetter c || isAsciiDigit c || isLatin1Sup c || c = '_' || c = apos

/-- `(.+?)\]` with lazy group already begun: find the first `]`, returning
the characters before it (the rest of the capture) and the characters after
it.  Fails on a newline (`.` does not match `\n`) or a missing `]`. -/
def grabClose : List Char → Option (List Char × List Char)
  | [] => none
  | c :: rest =>
    if c = ']' then some ([], rest)
    else if c = '\n' then none
    else
      match grabClose rest with
      | some (mid, g) => some (c :: mid, g)
      | none => none

/-- `(.+?)\]`: a non-empty lazy capture up to the first possible closing
`]` (which must lie at index ≥ 1), returning `(capture, rest)`. -/
def grabBracket : List Char → Option (List Char × List Char)
  | [] => none
  | c :: rest =>
    if c = '\n' then none
    else
      match grabClose rest with
      | some (mid, g) => some (c :: mid, g)
      | none => none

/-- After a candidate `>`: try to read one whitespace, `[:`, and the
`(.+?)\]` capture. -/
def err1Head (rest : List Char) : Option (List Char × List Char) :=
  match rest with
  | w :: x :: y :: tail =>
    if isPyWs w ∧ x = '[' ∧ y = ':' then grabBracket tail else none
  | _ => none

/-- After `<` and at least one consumed inner character: lazily look for a
`>` followed by one whitespace and `[:`, then grab the `(.+?)\]` capture.
On failure the `>` is absorbed into the lazy `.+?` and the scan goes on. -/
def err1Close : List Char → Option (List Char × List Char)
  | [] => none
  | c :: rest =>
    if c = '>' then
      match err1Head rest with
      | some r => some r
      | none => err1Close rest
    else if c = '\n' then none
    else err1Close rest

/-- `<.+?>\s\[:(.+?)\]` after the `<`: the lazy `.+?` needs at least one
character before the candidate `>`. -/
def err1After : List Char → Option (List Char × List Char)
  | [] => none
  | c :: rest => if c = '\n' then none else err1Close rest

/-- `re.search` for CASE 1, `(.*)<.+?>\s\[:(.+?)\](.*)`: the greedy leading
group selects the *last* viable `<`, hence the recursion prefers a match in
the tail.  Returns the three capture groups. -/
def searchErr1 : List Char → Option (List Char × List Char × List Char)
  | [] => none
  | c :: rest =>
    match searchErr1 rest with
    | some (g1, g2, g3) => some (c :: g1, g2, g3)
    | none =>
      if c = '<' then
        match err1After rest with
        | some (g2, g3) => some ([], g2, g3)
        | none => none
      else none

/-- After the whitespace following a word run: try to read `[:` and the
`(.+?)\]` capture. -/
def err2Head (rest : List Char) : Option (List Char × List Char) :=
  match rest with
  | x :: y :: tail => if x = '[' ∧ y = ':' then grabBracket tail else none
  | _ => none

/-- `re.search` for CASE 2, `(.*?)([a-zA-Z0-9À-ÿ_\']+?)\s\[:(.+?)\](.*)`:
the lazy leading group selects the *first* position where a word run is
followed by whitespace and `[:` with a reachable `]`.  `pre` accumulates the
reversed prefix, `run` the reversed current word run. -/
def err2Go : List Char → List Char → List Char → Option (List Char × List Char × List Char)
  | _, _, [] => none
  | pre, run, c :: rest =>
    if run.length ≠ 0 ∧ isPyWs c then
      match err2Head rest with
      | some (g3, g4) => some (pre.reverse, g3, g4)
      | none => err2Go (c :: (run ++ pre)) [] rest
    else if isErrWordClass c then err2Go pre (c :: run) rest
    else err2Go (c :: (run ++ pre)) [] rest

/-- `re.search` for the single-word correction pattern (CASE 2). -/
def searchErr2 (s : List Char) : Option (List Char × List Char × List Char) :=
  err2Go [] [] s

/-- The CASE 1 `while` loop: rewrite `\1\2\3` while the pattern matches. -/
def errLoop1F : Nat → List Char → List Char × Nat
  | 0, s => (s, 0)
  | fuel + 1, s =>
    match searchErr1 s with
    | none => (s, 0)
    | some (g1, g2, g3) =>
      let r := errLoop1F fuel (g1 ++ g2 ++ g3); (r.1, r.2 + 1)

/-- The CASE 2 `while` loop: rewrite `\1\3\4` while the pattern matches. -/
def errLoop2F : Nat → List Char → List Char × Nat
  | 0, s => (s, 0)
  | fuel + 1, s =>
    match searchErr2 s with
    | none => (s, 0)
    | some (g1, g3, g4) =>
      let r := errLoop2F fuel (g1 ++ g3 ++ g4); (r.1, r.2 + 1)

/-- `remove_errors` (cleaning_util.py lines 118–136): squeeze, then run the
two correction loops, counting every rewrite.  Each rewrite strictly
shortens the string (proved below), so `length + 1` fuel is enough for the
loops to reach their fixed points. -/
def remove_errors (dialog : List Char) : List Char × Nat :=
  let clean := squeeze dialog
  let r1 := errLoop1F (clean.length + 1) clean
  let r2 := errLoop2F (r1.1.length + 1) r1.1
  (r2.1, r1.2 + r2.2)

/-! ## `remove_repetitions` (cleaning_util.py lines 139–165) and
`remove_retracings` (lines 168–185)

CASE 1 (`<.+?> \[/\]` resp. `<.+?> \[//\]`) and CASE 2
(`[a-zA-Z0-9À-ÿ_\']+ \[/\]` resp. `[//]`) are counted with `re.findall` and
removed with `re.sub` using the same pattern, which visit the same
non-overlapping matches, so each is embedded as one combined scan.
`remove_repetitions` additionally has the text-file CASE 3 with *different*
count and substitution patterns (see below). -/

/-- Generic `.+?t` helper: find the first occurrence of the closing
character `t`, returning the characters before it and after it; the skipped
characters may not contain a newline. -/
def lazyClose (t : Char) : List Char → Option (List Char × List Char)
  | [] => none
  | c :: rest =>
    if c = t then some ([], rest)
    else if c = '\n' then none
    else
      match lazyClose t rest with
      | some (mid, g) => some (c :: mid, g)
      | none => none

/-- `.+?t` with a non-empty lazy capture: at least one character before the
first viable `t`. -/
def lazyCapture (t : Char) : List Char → Option (List Char × List Char)
  | [] => none
  | c :: rest =>
    if c = '\n' then none
    else
      match lazyClose t rest with
      | some (mid, g) => some (c :: mid, g)
      | none => none

/-- After `<` plus one consumed inner character: find a `>` followed by the
literal ` [` ++ `mark` ++ `]` (with `mark` either `/` or `//`); a `>` whose
suffix check fails is absorbed into the lazy `.+?`. -/
def repAngleFind (mark : List Char) : List Char → Option (List Char)
  | [] => none
  | c :: rest =>
    if c = '>' then
      if rest.take (mark.length + 3) = ' ' :: '[' :: (mark ++ [']']) then
        some (rest.drop (mark.length + 3))
      else repAngleFind mark rest
    else if c = '\n' then none
    else repAngleFind mark rest

/-- Count and remove every occurrence of `<.+?> \[mark\]` (CASE 1 of
repetition/retracing removal). -/
def repAngleScanF (mark : List Char) : Nat → List Char → List Char × Nat
  | 0, s => (s, 0)
  | fuel + 1, '<' :: rest =>
    let attempt : Option (List Char) :=
      match rest with
      | r1 :: rtail => if r1 = '\n' then none else repAngleFind mark rtail
      | [] => none
    (match attempt with
     | some after =>
       let r := repAngleScanF mark fuel after; (r.1, r.2 + 1)
     | none =>
       let r := repAngleScanF mark fuel rest; ('<' :: r.1, r.2))
  | fuel + 1, c :: rest =>
    let r := repAngleScanF mark fuel rest; (c :: r.1, r.2)
  | _ + 1, [] => ([], 0)

/-- Count and remove every occurrence of `[a-zA-Z0-9À-ÿ_\']+ \[mark\]`
(CASE 2).  A match can only start at the beginning of a maximal word run
(starting inside the run reaches the same run end), so a failed run is
skipped whole. -/
def repWordScanF (mark : List Char) : Nat → List Char → List Char × Nat
  | 0, s => (s, 0)
  | fuel + 1, c :: rest =>
    if isErrWordClass c then
      let run := (c :: rest).takeWhile isErrWordClass
      let after := (c :: rest).dropWhile isErrWordClass
      if after.take (mark.length + 3) = ' ' :: '[' :: (mark ++ [']']) then
        let r := repWordScanF mark fuel (after.drop (mark.length + 3))
        (r.1, r.2 + 1)
      else
        let r := repWordScanF mark fuel after; (run ++ r.1, r.2)
    else
      let r := repWordScanF mark fuel rest; (c :: r.1, r.2)
  | _ + 1, [] => ([], 0)

/-- Python `\b` at a position: the word-ness of the previous character (the
string start counting as non-word) differs from that of the current one. -/
def atBoundary (prev : Option Char) (c : Char) : Bool :=
  (match prev with | some p => isWordChar p | none => false) ≠ isWordChar c

/-- Case-sensitive literal prefix match. -/
def litMatchCS : List Char → List Char → Bool
  | [], _ => true
  | _ :: _, [] => false
  | p :: ps, t :: ts => p = t && litMatchCS ps ts

/-- Whether the head of `s` is a word character. -/
def headIsWord (s : List Char) : Bool :=
  match s.head? with
  | some d => isWordChar d
  | none => false

/-- `\b` at the head of `s` relative to the previous character. -/
def headBoundary (prev : Option Char) (s : List Char) : Bool :=
  match s.head? with
  | some c0 => atBoundary prev c0
  | none => false

/-- Substring containment (`.*needle` with newline-free text). -/
def containsSub (needle : List Char) : List Char → Bool
  | [] => litMatchCS needle []
  | c :: t => litMatchCS needle (c :: t) || containsSub needle t

/-! CASE 3 of `remove_repetitions`, counting pattern
`(\b\w+\b\s*)+\,*(?=.*\1)`: the repeated group consumes a chain of
whitespace-separated word runs (each `\w+` is forced to a whole run by its
closing `\b`, and a new iteration can only start after at least one
whitespace character); the backreference `\1` is the capture of the *last*
iteration, i.e. the last word together with the whitespace its `\s*` kept.
Backtracking explores: number of iterations descending, then the last
iteration's `\s*` length descending, then the comma run descending, and the
lookahead checks that the capture occurs again in the remaining text. -/

/-- Parse a chain of word runs separated by whitespace, returning for each
iteration `(word, maximal whitespace, text after that whitespace)`. -/
def rep3ParseChainF : Nat → List Char → List (List Char × List Char × List Char)
  | 0, _ => []
  | fuel + 1, s =>
    let w := s.takeWhile isWordChar
    let after := s.dropWhile isWordChar
    let sp := after.takeWhile isPyWs
    let rest := after.dropWhile isPyWs
    if w.length = 0 then []
    else if sp.length ≠ 0 ∧ headIsWord rest then
      (w, sp, rest) :: rep3ParseChainF fuel rest
    else [(w, sp, rest)]

/-- Try the comma run `\,*` (length descending) and the lookahead
`(?=.*\1)`; on success return the text after the match. -/
def rep3TryCommas (needle rem : List Char) : Nat → Option (List Char)
  | 0 => if containsSub needle rem then some rem else none
  | c + 1 =>
    let rem2 := rem.drop (c + 1)
    if containsSub needle rem2 then some rem2
    else rep3TryCommas needle rem c

/-- One attempt of the last iteration's `\s*` at a fixed kept length. -/
def rep3SpaceCheck (w sp rest : List Char) (m : Nat) : Option (List Char) :=
  let needle := w ++ sp.take m
  let rem := sp.drop m ++ rest
  rep3TryCommas needle rem (rem.takeWhile (· = ',')).length

/-- Try the last iteration's `\s*` length descending. -/
def rep3TrySpaces (w sp rest : List Char) : Nat → Option (List Char)
  | 0 => rep3SpaceCheck w sp rest 0
  | m + 1 =>
    match rep3SpaceCheck w sp rest (m + 1) with
    | some rem2 => some rem2
    | none => rep3TrySpaces w sp rest m

/-- Try the chain suffixes, preferring more iterations (the later list
entries are tried first by recursing before the head). -/
def rep3TryChain : List (List Char × List Char × List Char) → Option (List Char)
  | [] => none
  | (w, sp, rest) :: more =>
    match rep3TryChain more with
    | some r => some r
    | none => rep3TrySpaces w sp rest sp.length

/-- `len(re.findall(r'(\b\w+\b\s*)+\,*(?=.*\1)', s))`: count the
non-overlapping matches of the repeated-word lookahead pattern. -/
def rep3CountF : Nat → Option Char → List Char → Nat
  | 0, _, _ => 0
  | fuel + 1, prev, s =>
    match s with
    | [] => 0
    | c :: rest =>
      if isWordChar c ∧ atBoundary prev c then
        match rep3TryChain (rep3ParseChainF (s.length + 1) s) with
        | some rem2 =>
          let k := s.length - rem2.length
          1 + rep3CountF fuel ((s.take k).getLast?) rem2
        | none => rep3CountF fuel (some c) rest
      else rep3CountF fuel (some c) rest

/-- The character class `[a-z,A-Z ]` of the CASE 3 substitution pattern. -/
def isRep3Class (c : Char) : Bool := isAsciiLetter c || c = ',' || c = ' '

/-- One attempt of the substitution pattern `(\b[a-z,A-Z ]+\s*), (?=.*\1)`
with a capture of `n` characters: it must be followed by the literal `, `
and occur again in the lookahead. -/
def rep3SubCheck (s : List Char) (n : Nat) : Option (List Char) :=
  let g := s.take n
  match s.drop n with
  | ',' :: ' ' :: rest2 => if containsSub g rest2 then some rest2 else none
  | _ => none

/-- Try the `\s*` length descending for a fixed class-run length `r`. -/
def rep3SubTryM (s : List Char) (r : Nat) : Nat → Option (List Char)
  | 0 => rep3SubCheck s r
  | m + 1 =>
    match rep3SubCheck s (r + m + 1) with
    | some rest2 => some rest2
    | none => rep3SubTryM s r m

/-- Try the class-run length descending (greedy `[a-z,A-Z ]+`). -/
def rep3SubTryR (s : List Char) : Nat → Option (List Char)
  | 0 => none
  | r + 1 =>
    match rep3SubTryM s (r + 1) ((s.drop (r + 1)).takeWhile isPyWs).length with
    | some rem => some rem
    | none => rep3SubTryR s r

/-- `re.sub(r'(\b[a-z,A-Z ]+\s*), (?=.*\1)', '', s)`: remove every
non-overlapping match of the comma-repetition pattern. -/
def rep3SubF : Nat → Option Char → List Char → List Char
  | 0, _, s => s
  | fuel + 1, prev, s =>
    match s with
    | [] => []
    | c :: rest =>
      if isRep3Class c ∧ atBoundary prev c then
        match rep3SubTryR s ((s.takeWhile isRep3Class).length) with
        | some rem2 => rep3SubF fuel (some ' ') rem2
        | none => c :: rep3SubF fuel (some c) rest
      else c :: rep3SubF fuel (some c) rest

/-- `remove_repetitions` (cleaning_util.py lines 139–165). -/
def remove_repetitions (dialog : List Char) : List Char × Nat :=
  let clean := squeeze dialog
  let r1 := repAngleScanF ['/'] (clean.length + 1) clean
  let r2 := repWordScanF ['/'] (r1.1.length + 1) r1.1
  let n3 := rep3CountF (r2.1.length + 1) none r2.1
  let subbed := rep3SubF (r2.1.length + 1) none r2.1
  (subbed, r1.2 + r2.2 + n3)

/-- `remove_retracings` (cleaning_util.py lines 168–185). -/
def remove_retracings (dialog : List Char) : List Char × Nat :=
  let clean := squeeze dialog
  let r1 := repAngleScanF ['/', '/'] (clean.length + 1) clean
  let r2 := repWordScanF ['/', '/'] (r1.1.length + 1) r1.1
  (r2.1, r1.2 + r2.2)

/-! ## `remove_markers_and_symbols` (cleaning_util.py lines 188–205) -/

/-- `re.sub(r'([a-z]+)(\+)([a-z]+)', r'\1-\3', s)`: turn the `+` joiner of
composed French words into `-`. -/
def plusJoinerF : Nat → List Char → List Char
  | 0, s => s
  | fuel + 1, c :: rest =>
    if isAsciiLower c then
      let run := (c :: rest).takeWhile isAsciiLower
      let after := (c :: rest).dropWhile isAsciiLower
      match after with
      | '+' :: d :: after2 =>
        if isAsciiLower d then
          let run2 := (d :: after2).takeWhile isAsciiLower
          let after3 := (d :: after2).dropWhile isAsciiLower
          run ++ '-' :: (run2 ++ plusJoinerF fuel after3)
        else run ++ plusJoinerF fuel after
      | _ => run ++ plusJoinerF fuel after
    else c :: plusJoinerF fuel rest
  | _ + 1, [] => []

/-- The bare-symbol class `[<>\[\]+=\"/]`. -/
def isSymCls (c : Char) : Bool :=
  c = '<' || c = '>' || c = '[' || c = ']' || c = '+' || c = '=' ||
  c = '"' || c = '/'

/-- The class `[a-zA-ZÀ-ÿ0-9_-]` of the `&=` marker alternative. -/
def isMkWord (c : Char) : Bool :=
  isAsciiLetter c || isLatin1Sup c || isAsciiDigit c || c = '_' || c = '-'

/-- Remainder after the *last* occurrence of `t` (greedy `.+` before a
final literal). -/
def afterLast (t : Char) : List Char → Option (List Char)
  | [] => none
  | c :: rest =>
    match afterLast t rest with
    | some r => some r
    | none => if c = t then some rest else none

/-- The alternation
`^(\+,)|^(\,)|\[.+?\]|<.+?>|[<>\[\]+=\"/]|&=[a-zA-ZÀ-ÿ0-9_-]+|\x15.+\x15`
of cleaning_util.py line 195, applied with `re.sub(..., '', s)`.
Alternatives are tried in order at each position; the `^`-anchored ones
only at the start of the string. -/
def markerAltF : Nat → Bool → List Char → List Char
  | 0, _, s => s
  | fuel + 1, atStart, s =>
    match s with
    | [] => []
    | c :: rest =>
      if atStart ∧ c = '+' ∧ rest.head? = some ',' then
        markerAltF fuel false rest.tail
      else if atStart ∧ c = ',' then markerAltF fuel false rest
      else if c = '[' then
        match grabBracket rest with
        | some (_, after) => markerAltF fuel false after
        | none => markerAltF fuel false rest
      else if c = '<' then
        match lazyCapture '>' rest with
        | some (_, after) => markerAltF fuel false after
        | none => markerAltF fuel false rest
      else if isSymCls c then markerAltF fuel false rest
      else if c = '&' ∧ rest.head? = some '=' ∧
              (rest.tail.takeWhile isMkWord).length ≠ 0 then
        markerAltF fuel false (rest.tail.dropWhile isMkWord)
      else if c = nak then
        match rest with
        | _ :: rtail =>
          (match afterLast nak rtail with
           | some after => markerAltF fuel false after
           | none => c :: markerAltF fuel false rest)
        | [] => c :: markerAltF fuel false rest
      else c :: markerAltF fuel false rest

/-- The complement of the deletion class
`[^a-zA-Z0-9À-ÿÀ-ÿ\s,\._;-\?!\'\’\œ-]` of line 198 (`;-\?` is the
code-point range `;<=>?`). -/
def isAllowedChar (c : Char) : Bool :=
  isAsciiLetter c || isAsciiDigit c || isLatin1Sup c || isPyWs c ||
  c = ',' || c = '.' || c = '_' || (59 ≤ c.toNat && c.toNat ≤ 63) || c = '!' ||
  c = apos || c.toNat = 0x2019 || c.toNat = 0x153 || c = '-'

/-- The class `[a-zA-ZÀ-ÿ0-9_-]` of the zero-prefix rule. -/
def isZpClass (c : Char) : Bool :=
  isAsciiLetter c || isLatin1Sup c || isAsciiDigit c || c = '_' || c = '-'

/-- `re.sub(r'(\b0)([a-zA-ZÀ-ÿ0-9_-])', r'\2', s)`: drop a `0` that starts
a word when a word character follows. -/
def prevNonWord (prev : Option Char) : Bool :=
  match prev with
  | some p => !isWordChar p
  | none => true

def zeroPrefixScan : Option Char → List Char → List Char
  | prev, '0' :: d :: rest =>
    if prevNonWord prev ∧ isZpClass d then
      d :: zeroPrefixScan (some d) rest
    else '0' :: zeroPrefixScan (some '0') (d :: rest)
  | _, c :: rest => c :: zeroPrefixScan (some c) rest
  | _, [] => []

/-- `remove_markers_and_symbols` (cleaning_util.py lines 188–205). -/
def remove_markers_and_symbols (dialog : List Char) : List Char :=
  let c0 := squeeze dialog
  let c1 := plusJoinerF (c0.length + 1) c0
  let c2 := markerAltF (c1.length + 1) true c1
  let c3 := c2.filter isAllowedChar
  zeroPrefixScan none c3

/-! ## `normalize_sentence` (cleaning_util.py lines 208–238) -/

/-- Python `str.upper` on one character (ASCII and Latin-1 letters; `ÿ`
uppercases to `Ÿ`). -/
def pyUpperChar (c : Char) : Char :=
  if isAsciiLower c then Char.ofNat (c.toNat - 32)
  else if 0xE0 ≤ c.toNat ∧ c.toNat ≤ 0xFE ∧ c.toNat ≠ 0xF7 then
    Char.ofNat (c.toNat - 32)
  else if c.toNat = 0xFF then Char.ofNat 0x178
  else c

/-- Python `str.strip()`. -/
def pyStrip (s : List Char) : List Char :=
  ((s.dropWhile isPyWs).reverse.dropWhile isPyWs).reverse

/-- `re.sub(' X', 'X', s)` for a punctuation mark `X`: delete one space
immediately before each occurrence. -/
def delSpaceBefore (t : Char) : List Char → List Char
  | ' ' :: c :: rest =>
    if c = t then c :: delSpaceBefore t rest
    else ' ' :: delSpaceBefore t (c :: rest)
  | c :: rest => c :: delSpaceBefore t rest
  | [] => []

/-- `normalize_sentence` (cleaning_util.py lines 208–238): squeeze, strip,
capitalize the first character, split named entities on `_`, delete spaces
before `.`/`,`/`?` (the `!` substitution in the source replaces `!` by
itself and is the identity), squeeze again, append a final `.` when the
line ends in none of `.?!`, and return nothing when no ASCII letter
remains. -/
def normalize_sentence (dialog : List Char) : Option (List Char) :=
  let c1 := squeeze dialog
  let c2 := pyStrip c1
  let c3 := match c2 with | [] => [] | h :: t => pyUpperChar h :: t
  let c4 := c3.map (fun c => if c = '_' then ' ' else c)
  let c5 := delSpaceBefore '.' c4
  let c6 := delSpaceBefore ',' c5
  let c7 := delSpaceBefore '?' c6
  let c8 := squeeze c7
  let c9 :=
    if c8.getLast? = some '.' ∨ c8.getLast? = some '?' ∨ c8.getLast? = some '!'
    then c8 else c8 ++ ['.']
  if c9.any isAsciiLetter then some c9 else none

/-! ## `reduce_synonyms` (cleaning_util.py lines 249–260)

`pattern = r"\b(" + '|'.join(variants) + r")\b"`；
`nb += len(re.findall(pattern, s, re.IGNORECASE))` passes the flag
correctly, but `re.sub(pattern, canonical, s, re.IGNORECASE)` passes
`re.IGNORECASE` (= 2) as the *count* argument of `re.sub`, so the
substitution is case-sensitive and replaces at most two occurrences. -/

/-- Python `str.lower` on one character (ASCII and Latin-1). -/
def pyLowerChar (c : Char) : Char :=
  if isAsciiUpper c then Char.ofNat (c.toNat + 32)
  else if 0xC0 ≤ c.toNat ∧ c.toNat ≤ 0xDE ∧ c.toNat ≠ 0xD7 then
    Char.ofNat (c.toNat + 32)
  else c

/-- Single-character comparison, optionally case-insensitive. -/
def charMatch (ci : Bool) (a b : Char) : Bool :=
  if ci then pyLowerChar a = pyLowerChar b else a = b

/-- Literal pattern match against a prefix of the text. -/
def litMatch (ci : Bool) : List Char → List Char → Bool
  | [], _ => true
  | _ :: _, [] => false
  | p :: ps, t :: ts => charMatch ci p t && litMatch ci ps ts

/-- `\b` after a match: the word-ness of the last matched character differs
from that of the following character (end of string counting as
non-word). -/
def boundaryAfter (consumed rest : List Char) : Bool :=
  match consumed.getLast? with
  | none => false
  | some lastC =>
    isWordChar lastC ≠ (match rest.head? with
                        | some d => isWordChar d
                        | none => false)

/-- Try the variant alternation `\b(v₁|v₂|…)\b` at the current position:
variants are tried in the given order; both boundaries must hold.  Returns
`(consumed original text, rest)`. -/
def wbTryVars (ci : Bool) (prev : Option Char) (s : List Char) :
    List (List Char) → Option (List Char × List Char)
  | [] => none
  | v :: vs =>
    let consumed := s.take v.length
    let rest := s.drop v.length
    if v.length ≠ 0 ∧ litMatch ci v s ∧ headBoundary prev s ∧
       boundaryAfter consumed rest then
      some (consumed, rest)
    else wbTryVars ci prev s vs

/-- Global scan for the word-boundary alternation, replacing each match
with `repl` and counting matches, up to `maxN` replacements
(`none` = unbounded, which is also `re.findall` counting). -/
def wbScanF (ci : Bool) (vars : List (List Char)) (repl : List Char)
    (maxN : Option Nat) : Nat → Option Char → List Char → List Char × Nat
  | 0, _, s => (s, 0)
  | fuel + 1, prev, s =>
    match s with
    | [] => ([], 0)
    | c :: rest =>
      match (match maxN with
             | some 0 => none
             | _ => wbTryVars ci prev s vars) with
      | some (consumed, after) =>
        let r := wbScanF ci vars repl (maxN.map (· - 1)) fuel
          consumed.getLast? after
        (repl ++ r.1, r.2 + 1)
      | none =>
        let r := wbScanF ci vars repl maxN fuel (some c) rest
        (c :: r.1, r.2)

/-- `reduce_synonyms` (cleaning_util.py lines 249–260): for each canonical
term, count all case-insensitive word-boundary occurrences of its variants,
but substitute case-sensitively and at most twice (`re.IGNORECASE` passed
as `count`). -/
def reduce_synonyms (dialog : List Char)
    (conf : List (List Char × List (List Char))) : List Char × Nat :=
  conf.foldl
    (fun acc entry =>
      let n := (wbScanF true entry.2 [] none (acc.1.length + 1) none acc.1).2
      let t := (wbScanF false entry.2 entry.1 (some 2) (acc.1.length + 1)
        none acc.1).1
      (t, acc.2 + n))
    (dialog, 0)

/-! ## `remove_interjections` / `remove_expressions`
(cleaning_util.py lines 61–99)

Per configured literal, `\b(\&[-])*lit\b` resp. `&=\blit\b`, both
case-insensitive, counted with `re.findall` and removed with `re.sub`. -/

/-- Number of leading `&-` pairs. -/
def ampDashCount : List Char → Nat
  | '&' :: '-' :: rest => 1 + ampDashCount rest
  | _ => 0

/-- One attempt of `\b(\&[-])*lit\b` with exactly `k` copies of `&-`. -/
def interjCheck (lit : List Char) (prev : Option Char) (s : List Char)
    (k : Nat) : Option (List Char) :=
  let s2 := s.drop (2 * k)
  let consumed := s2.take lit.length
  if headBoundary prev s ∧
     s.take (2 * k) = List.flatten (List.replicate k ['&', '-']) ∧
     litMatch true lit s2 ∧ lit.length ≠ 0 ∧
     boundaryAfter consumed (s2.drop lit.length) then
    some (s2.drop lit.length)
  else none

/-- Try `\b(\&[-])*lit\b` at the current position, the number of `&-`
copies descending (greedy with backtracking). -/
def interjTryK (lit : List Char) (prev : Option Char) (s : List Char) :
    Nat → Option (List Char)
  | 0 => interjCheck lit prev s 0
  | k + 1 =>
    match interjCheck lit prev s (k + 1) with
    | some r => some r
    | none => interjTryK lit prev s k

/-- Combined count-and-remove scan for one interjection literal. -/
def interjScanF (lit : List Char) : Nat → Option Char → List Char → List Char × Nat
  | 0, _, s => (s, 0)
  | fuel + 1, prev, s =>
    match s with
    | [] => ([], 0)
    | c :: rest =>
      match interjTryK lit prev s (ampDashCount s) with
      | some after =>
        let k := s.length - after.length
        let r := interjScanF lit fuel ((s.take k).getLast?) after
        (r.1, r.2 + 1)
      | none =>
        let r := interjScanF lit fuel (some c) rest
        (c :: r.1, r.2)

/-- `remove_interjections` (cleaning_util.py lines 61–78) with the
configuration file already read into a list of literals. -/
def remove_interjections (dialog : List Char) (conf : List (List Char)) :
    List Char × Nat :=
  conf.foldl
    (fun acc lit =>
      let r := interjScanF lit (acc.1.length + 1) none acc.1
      (r.1, acc.2 + r.2))
    (squeeze dialog, 0)

/-- Try `&=\blit\b` at the current position. -/
def exprTry (lit : List Char) (s : List Char) : Option (List Char) :=
  match s with
  | '&' :: '=' :: s2 =>
    let consumed := s2.take lit.length
    if headBoundary (some '=') s2 ∧
       litMatch true lit s2 ∧ lit.length ≠ 0 ∧
       boundaryAfter consumed (s2.drop lit.length) then
      some (s2.drop lit.length)
    else none
  | _ => none

/-- Combined count-and-remove scan for one expression literal. -/
def exprScanF (lit : List Char) : Nat → List Char → List Char × Nat
  | 0, s => (s, 0)
  | fuel + 1, s =>
    match s with
    | [] => ([], 0)
    | c :: rest =>
      match exprTry lit s with
      | some after =>
        let r := exprScanF lit fuel after
        (r.1, r.2 + 1)
      | none =>
        let r := exprScanF lit fuel rest
        (c :: r.1, r.2)

/-- `remove_expressions` (cleaning_util.py lines 83–99). -/
def remove_expressions (dialog : List Char) (conf : List (List Char)) :
    List Char × Nat :=
  conf.foldl
    (fun acc lit =>
      let r := exprScanF lit (acc.1.length + 1) acc.1
      (r.1, acc.2 + r.2))
    (squeeze dialog, 0)

/-! ## `remove_errors` wrapper and `clean_transcription`
(multilingual-text-normalizer.py lines 221–310) -/

/-- The word-count class `[a-zA-ZÀ-ÿ-,\']` of the total-word-count regex
(multilingual-text-normalizer.py line 271). -/
def isWcClass (c : Char) : Bool :=
  isAsciiLetter c || isLatin1Sup c || c = '-' || c = ',' || c = apos

/-- `len(re.findall(r'(?:^|(?<= ))[a-zA-ZÀ-ÿ-,\']+(?= |$)', s))`: count the
maximal class runs that start the string or follow a space and are followed
by a space or the end. -/
def wordCountF : Nat → Bool → List Char → Nat
  | 0, _, _ => 0
  | fuel + 1, canStart, s =>
    match s with
    | [] => 0
    | c :: rest =>
      if canStart ∧ isWcClass c then
        let after := (c :: rest).dropWhile isWcClass
        if after.head? = some ' ' ∨ after = [] then 1 + wordCountF fuel false after
        else wordCountF fuel false after
      else wordCountF fuel (c = ' ') rest

/-- The total word count of a cleaned line. -/
def totalWordCount (s : List Char) : Nat := wordCountF (s.length + 1) true s

/-- The per-line cleaning measures record. -/
structure Measures where
  nbPausesTotal : Nat
  nbPausesShort : Nat
  nbPausesMedium : Nat
  nbPausesLong : Nat
  nbPausesOther : Nat
  nbInterjections : Nat
  nbExpressions : Nat
  nbIncWords : Nat
  nbIncPhrases : Nat
  nbErrors : Nat
  nbRepetitions : Nat
  nbRetracings : Nat
  nbSynonyms : Nat
  totalWordCount : Nat
deriving DecidableEq, Repr

/-- The cleaning pipeline of `clean_transcription`
(multilingual-text-normalizer.py lines 255–273) applied to one line (text
file mode): pauses → parentheses → interjections (when configured) →
expressions (when configured) → incomplete words/phrases → errors →
repetitions → retracings → markers and symbols → word count → sentence
normalization.  Returns the measures (with `nbSynonyms := 0`; the caller
overrides it when a synonym configuration is given) and the normalized text
(`none` when the line is dropped). -/
def cleanLine (interjConf exprConf : Option (List (List Char)))
    (l : List Char) : Measures × Option (List Char) :=
  let p := remove_pauses l
  let c2 := remove_parentheses p.1
  let i :=
    match interjConf with
    | none => (c2, 0)
    | some conf => remove_interjections c2 conf
  let e :=
    match exprConf with
    | none => (i.1, 0)
    | some conf => remove_expressions i.1 conf
  let w := remove_incomplete_words_and_phrases e.1
  let er := remove_errors w.1
  let rp := remove_repetitions er.1
  let rt := remove_retracings rp.1
  let mk := remove_markers_and_symbols rt.1
  let wc := totalWordCount mk
  (⟨p.2.nbPausesTotal, p.2.nbPausesShort, p.2.nbPausesMedium,
    p.2.nbPausesLong, p.2.nbPausesOther, i.2, e.2, w.2.1, w.2.2, er.2,
    rp.2, rt.2, 0, wc⟩,
   normalize_sentence mk)

/-- Whether a line survives cleaning (is kept in the output dialog). -/
def lineSurvives (interjConf exprConf : Option (List (List Char)))
    (l : List Char) : Bool :=
  (cleanLine interjConf exprConf l).2.isSome

/-- One loop iteration of `clean_transcription` after the line has been
cleaned: a line whose normalization returned nothing is dropped by
`continue` *before* the measures record is appended, so it contributes
neither to the dialog nor to the measures list.  With a synonym
configuration the normalized line is reduced and re-normalized; if the
re-normalization returns `None`, Python would raise a `TypeError` when
concatenating it (`None + '\n'`). -/
def cleanCons (r : Measures × Option (List Char))
    (synConf : Option (List (List Char × List (List Char))))
    (tailRes : Except PyErr (List Measures × List Char × List Char)) :
    Except PyErr (List Measures × List Char × List Char) :=
  match r.2 with
  | none => tailRes
  | some clean =>
    match synConf with
    | none =>
      tailRes.map (fun acc => (r.1 :: acc.1, clean ++ '\n' :: acc.2.1, acc.2.2))
    | some conf =>
      let syn := reduce_synonyms clean conf
      match normalize_sentence syn.1 with
      | none => .error .typeError
      | some ns =>
        tailRes.map (fun acc =>
          ({ r.1 with nbSynonyms := syn.2 } :: acc.1,
           clean ++ '\n' :: acc.2.1, ns ++ '\n' :: acc.2.2))

/-- `clean_transcription` (multilingual-text-normalizer.py lines 221–310)
in text-file mode: clean every line in order, folding `cleanCons`. -/
def clean_transcription (lines : List (List Char))
    (synConf : Option (List (List Char × List (List Char))))
    (interjConf exprConf : Option (List (List Char))) :
    Except PyErr (List Measures × List Char × List Char) :=
  match lines with
  | [] => .ok ([], [], [])
  | l :: rest =>
    cleanCons (cleanLine interjConf exprConf l) synConf
      (clean_transcription rest synConf interjConf exprConf)

/-! ## `extract_participant_info` (corpus_util.py lines 24–37)

`re.search(r'(.*)_([0-9]+)-([0-9a-z])+', file_name)` followed by
`re_participant_info.groups()`.  When the pattern does not match,
`re.search` returns `None` and the `.groups()` attribute access raises
`AttributeError`; when it matches, `groups()` always has exactly three
entries (the pattern has three groups), so the `len(...) != 3` diagnostic
branch is dead code and the record is always filled. -/

/-- The participant record parsed from a file name.  The third group
`([0-9a-z])+` is a repeated single-character group, so it captures only the
last repetition. -/
structure ParticipantInfo where
  status : List Char
  idParticipant : List Char
  interviewNumber : Char
deriving DecidableEq, Repr

/-- After a candidate `_`: `([0-9]+)-([0-9a-z])+`, the greedy digit run
followed immediately by `-` and a non-empty `[0-9a-z]` run (whose last
character is the captured group 3). -/
def pinfoAfterUnderscore (rest : List Char) : Option (List Char × Char) :=
  let digits := rest.takeWhile isAsciiDigit
  let after := rest.dropWhile isAsciiDigit
  if digits.length ≠ 0 then
    match after with
    | '-' :: more =>
      match (more.takeWhile (fun c => isAsciiDigit c || isAsciiLower c)).getLast? with
      | some lastC => some (digits, lastC)
      | none => none
    | _ => none
  else none

/-- `re.search(r'(.*)_([0-9]+)-([0-9a-z])+', s)`: the greedy `(.*)` selects
the last viable `_`. -/
def pinfoGo : List Char → Option (List Char × List Char × Char)
  | [] => none
  | c :: rest =>
    match pinfoGo rest with
    | some (g1, g2, g3) => some (c :: g1, g2, g3)
    | none =>
      if c = '_' then
        match pinfoAfterUnderscore rest with
        | some (digits, lastC) => some ([], digits, lastC)
        | none => none
      else none

/-- `extract_participant_info` (corpus_util.py lines 24–37): raises
`AttributeError` (`'NoneType' object has no attribute 'groups'`) on a file
name that does not match the convention. -/
def extract_participant_info (fileName : List Char) :
    Except PyErr ParticipantInfo :=
  match pinfoGo fileName with
  | none => .error .attributeError
  | some (g1, g2, g3) => .ok ⟨g1, g2, g3⟩

/-! ## The per-file ratio computation of `process_corpus`
(multilingual-text-normalizer.py lines 201–216)

For every name in `CLEANING_MEASURES_DICT` (a non-empty set of 13 counters)
the code computes `sum(...) / total_word_count` with no guard; in Python 3
this raises `ZeroDivisionError` whenever the file's summed total word count
is zero, whichever set-iteration order is used, because the very first
division already divides by zero.  Ratios are modelled as rationals. -/

/-- Sum one measure field over the per-line records of a file. -/
def sumMeasure (f : Measures → Nat) (ms : List Measures) : Nat :=
  (ms.map f).sum

/-- The 13 projections of `CLEANING_MEASURES_DICT`
(multilingual-text-normalizer.py lines 61–63). -/
def measureFields : List (Measures → Nat) :=
  [Measures.nbPausesTotal, Measures.nbPausesShort, Measures.nbPausesMedium,
   Measures.nbPausesLong, Measures.nbPausesOther, Measures.nbInterjections,
   Measures.nbExpressions, Measures.nbIncWords, Measures.nbIncPhrases,
   Measures.nbRepetitions, Measures.nbRetracings, Measures.nbErrors,
   Measures.nbSynonyms]

/-- The frequency/ratio block of `process_corpus` (lines 201–216): each
measure is summed and divided by the file's total word count. -/
def processFileMeasures (ms : List Measures) :
    Except PyErr (List (Nat × ℚ) × Nat) :=
  let twc := sumMeasure Measures.totalWordCount ms
  if twc = 0 then .error .zeroDivisionError
  else
    .ok (measureFields.map
      (fun f => (sumMeasure f ms, (sumMeasure f ms : ℚ) / (twc : ℚ))), twc)

/-! ## The English POS adjuster (english-pos-adjustment.py) with the `Tag`
class of nlp_util.py lines 55–64

`Tag.__init__(self, original="", lemma="", tag="")` stores exactly three
attributes; there is no `certainty` attribute and no fourth parameter.
`compose_tagging` and `identify_auxiliary_verbs` nevertheless evaluate
`current_tag.certainty` (and pass it as a fourth constructor argument)
whenever one of their rewrite rules fires, which raises `AttributeError`
in Python; those branches are therefore embedded as errors. -/

/-- `nlp_util.Tag`: original word, lemma, POS tag. -/
structure Tag where
  original : List Char
  «lemma» : List Char
  tag : List Char
deriving DecidableEq, Repr

/-- `UniversalPOS.VERB_TAG`. -/
def VERB_TAG : List Char := "VERB".data

/-- `UniversalPOS.ADP_TAG`. -/
def ADP_TAG : List Char := "ADP".data

/-- The surface form `'s`. -/
def apostropheS : List Char := [apos, 's']

/-- The surface form `'re`. -/
def apostropheRe : List Char := [apos, 'r', 'e']

/-- Python `str.endswith("ing")`. -/
def endsWithIng (s : List Char) : Bool :=
  s.reverse.take 3 == ['g', 'n', 'i']

/-- The loop body of `compose_tagging` (english-pos-adjustment.py lines
154–207), threading `be_pos_flag`.  A token with lemma `throat` is skipped
(`continue`) without touching the flag; each of the three rewrite rules
evaluates `current_tag.certainty` and hence raises `AttributeError`. -/
def ctGo : List Tag → Bool → Nat → Except PyErr (List Tag × Nat)
  | [], _, cnt => .ok ([], cnt)
  | t :: rest, bpf, cnt =>
    if t.«lemma» = "throat".data then ctGo rest bpf cnt
    else if t.tag = VERB_TAG ∧ t.original = apostropheRe ∧
            t.«lemma» = apostropheRe then
      .error .attributeError
    else if bpf ∧ endsWithIng t.original ∧ t.tag ≠ VERB_TAG then
      .error .attributeError
    else
      let bpf' := if bpf ∧ t.«lemma» ≠ "throat".data then false else bpf
      if t.tag = ADP_TAG ∧ t.original = apostropheS ∧ t.«lemma» = apostropheS then
        .error .attributeError
      else
        match ctGo rest bpf' cnt with
        | .ok (l, c) => .ok (t :: l, c)
        | .error e => .error e

/-- `compose_tagging` (english-pos-adjustment.py lines 154–207). -/
def compose_tagging (sentence : List Tag) (adjustment_count : Nat) :
    Except PyErr (List Tag × Nat) :=
  ctGo sentence false adjustment_count

/-- The loop body of `extract_looks_like` (english-pos-adjustment.py lines
384–462), threading `look_flag`, `it_flag`, `as_flag` and building the
output list `acc`.  `del adjusted_sentence[-1]` is `List.dropLast`; from
the initial empty state the list is always long enough for the deletions
(every deletion removes a token appended since the flags were set), so the
total `dropLast` never differs from Python's `del`. -/
def llGo : List Tag → List Tag → Bool → Bool → Bool → Nat → List Tag × Nat
  | [], acc, _, _, _, cnt => (acc, cnt)
  | t :: rest, acc, lf, itf, af, cnt =>
    if t.«lemma» = "it".data then llGo rest (acc ++ [t]) lf true af cnt
    else if t.«lemma» = "look".data then llGo rest (acc ++ [t]) true itf af cnt
    else if t.«lemma» = "like".data then
      if lf then
        if itf then llGo rest acc.dropLast.dropLast false false false (cnt + 2)
        else llGo rest acc.dropLast false false false (cnt + 1)
      else llGo rest (acc ++ [t]) false false false cnt
    else if t.«lemma» = "as".data then
      if lf then llGo rest (acc ++ [t]) lf itf true cnt
      else llGo rest (acc ++ [t]) lf itf af cnt
    else if t.«lemma» = "though".data ∨ t.«lemma» = "if".data then
      if af then
        if itf then
          llGo rest acc.dropLast.dropLast.dropLast false false false (cnt + 3)
        else llGo rest acc.dropLast.dropLast false false false (cnt + 2)
      else llGo rest acc false false false cnt
    else llGo rest (acc ++ [t]) false false false cnt

/-- `extract_looks_like` (english-pos-adjustment.py lines 384–462). -/
def extract_looks_like (sentence : List Tag) (adjustment_count : Nat) :
    List Tag × Nat :=
  llGo sentence [] false false false adjustment_count

/-- The POS tag of the token at index `i`. -/
def tagAt (full : List Tag) (i : Nat) : Option (List Char) :=
  (full.get? i).map Tag.tag

/-- The loop body of `identify_auxiliary_verbs` (english-pos-adjustment.py
lines 464–524): both rules construct a `Tag` with
`current_tag.certainty`, raising `AttributeError` when they fire. -/
def iavGo (full : List Tag) : List Tag → Nat → Nat → Except PyErr (List Tag × Nat)
  | [], _, cnt => .ok ([], cnt)
  | t :: rest, idx, cnt =>
    if (t.«lemma» = "be".data ∨ t.«lemma» = "can".data ∨ t.«lemma» = "have".data ∨
        t.«lemma» = "may".data ∨ t.«lemma» = "must".data ∨
        t.«lemma» = "should".data ∨ t.«lemma» = "will".data) ∧
       t.tag = VERB_TAG ∧ idx + 1 < full.length ∧
       tagAt full (idx + 1) = some VERB_TAG then
      .error .attributeError
    else if (t.«lemma» = "do".data ∨ t.«lemma» = "may".data ∨
             t.«lemma» = "must".data ∨ t.«lemma» = "need".data ∨
             t.«lemma» = "shall".data ∨ t.«lemma» = "would".data) ∧
            t.tag = VERB_TAG ∧ idx + 2 < full.length ∧
            tagAt full (idx + 2) = some VERB_TAG then
      .error .attributeError
    else
      match iavGo full rest (idx + 1) cnt with
      | .ok (l, c) => .ok (t :: l, c)
      | .error e => .error e

/-- `identify_auxiliary_verbs` (english-pos-adjustment.py lines 464–524). -/
def identify_auxiliary_verbs (sentence : List Tag) (adjustment_count : Nat) :
    Except PyErr (List Tag × Nat) :=
  iavGo sentence sentence 0 adjustment_count

/-- An element of the FreeLing tag stream: a `Tag` or the `"\n"`
sentence-boundary sentinel produced by `extract_freeling_tags`. -/
inductive Entry where
  | tok (t : Tag)
  | sep
deriving DecidableEq, Repr

/-- The `Results` counters of english-pos-adjustment.py lines 41–46. -/
structure Results where
  compose_count : Nat
  conj_count : Nat
  tag_reduction_count : Nat
  looks_like_count : Nat
  aux_verb_count : Nat
deriving DecidableEq, Repr

/-- The sentence-splitting loop of `adjust_pos_tags` (lines 135–140): a
`Tag` extends the current sentence, anything else closes it; the trailing
`curr_sentence` is *not* appended when the stream ends without a
sentinel. -/
def splitGo : List Entry → List Tag → List (List Tag)
  | [], _ => []
  | .tok t :: rest, curr => splitGo rest (curr ++ [t])
  | .sep :: rest, curr => curr :: splitGo rest []

/-- One iteration of the per-sentence adjustment loop (lines 142–150):
`compose_tagging`, `extract_looks_like`, `identify_auxiliary_verbs` (the
conjunction/tag-reduction passes are commented out in the source). -/
def adjustSentence (sent : List Tag) (r : Results) :
    Except PyErr (List Tag × Results) :=
  match compose_tagging sent r.compose_count with
  | .error e => .error e
  | .ok (s1, c1) =>
    let l := extract_looks_like s1 r.looks_like_count
    match identify_auxiliary_verbs l.1 r.aux_verb_count with
    | .error e => .error e
    | .ok (s3, c3) =>
      .ok (s3, { r with compose_count := c1, looks_like_count := l.2,
                        aux_verb_count := c3 })

/-- The per-sentence loop of `adjust_pos_tags`, rebuilding the output
stream with a sentinel after each sentence. -/
def adjustGo : List (List Tag) → Results → Except PyErr (List Entry × Results)
  | [], r => .ok ([], r)
  | sent :: more, r =>
    match adjustSentence sent r with
    | .error e => .error e
    | .ok (s, r') =>
      match adjustGo more r' with
      | .error e => .error e
      | .ok (es, r'') => .ok (s.map Entry.tok ++ Entry.sep :: es, r'')

/-- `adjust_pos_tags` (english-pos-adjustment.py lines 115–152). -/
def adjust_pos_tags (pos_tags : List Entry) (r : Results) :
    Except PyErr (List Entry × Results) :=
  adjustGo (splitGo pos_tags []) r

/-! ## Syntactic cleanliness predicates

These decidable predicates describe a line that is already free of every
marker pattern of the cleaning pipeline and already in normalized sentence
shape.  They are the formal counterpart of "a line already free of all
marker patterns" and are used to state the idempotence property. -/

/-- No two adjacent whitespace characters (so `\s\s+` cannot match). -/
def noDoubleWs : List Char → Bool
  | a :: b :: rest => !(isPyWs a && isPyWs b) && noDoubleWs (b :: rest)
  | _ => true

/-- No three adjacent dots (so `\.\.\.` cannot match). -/
def noTripleDot : List Char → Bool
  | a :: b :: c :: rest =>
    !(a = '.' && b = '.' && c = '.') && noTripleDot (b :: c :: rest)
  | _ => true

/-- No adjacent pair `a b` (used for the space-before-punctuation
substitutions of the normalizer). -/
def noPair (a b : Char) : List Char → Bool
  | x :: y :: rest => !(x = a && y = b) && noPair a b (y :: rest)
  | _ => true

/-- Characters that none of the cleaning patterns can touch: ASCII letters,
digits 1–9 (a leading `0` is a marker), space, and the sentence punctuation
`.?!;'-`.  In particular no parentheses, brackets, angle brackets, `&`,
`+`, `"`, `/`, `=`, `_`, `,`, `0`, control characters or non-space
whitespace. -/
def isCleanChar (c : Char) : Bool :=
  isAsciiLetter c || (49 ≤ c.toNat && c.toNat ≤ 57) || c = ' ' || c = '.' ||
  c = '?' || c = '!' || c = ';' || c = apos || c = '-'

/-- A line in normalized sentence shape that is free of every marker
pattern of the pipeline: it starts with an uppercase ASCII letter, ends in
terminal punctuation, consists of clean characters, has no double spaces,
no space before `.`/`,`/`?`, no `...`, and the text-repetition counting
pattern of `remove_repetitions` finds no match in it. -/
def isCleanLine (s : List Char) : Bool :=
  (match s.head? with | some h => isAsciiUpper h | none => false) &&
  (s.getLast? = some '.' || s.getLast? = some '?' || s.getLast? = some '!') &&
  s.all isCleanChar &&
  noDoubleWs s &&
  noPair ' ' '.' s && noPair ' ' ',' s && noPair ' ' '?' s &&
  noTripleDot s &&
  rep3CountF (s.length + 1) none s == 0

/-- The zero-valued measures record with a given total word count. -/
def zeroMeasures (n : Nat) : Measures :=
  ⟨0, 0, 0, 0, 0, 0, 0, 0, 0, 0, 0, 0, 0, n⟩

/-- How many elements of the accumulator of `extract_looks_like` the
pending flag state may still delete (`it` one more, `as` implies `as` and
`look`, a bare `look` one). -/
def llReserve (lf itf af : Bool) : Nat :=
  (if itf then 1 else 0) + (if af then 2 else if lf then 1 else 0)

/-! Length accounting for the correction rewrites: every successful match
loses at least the `<>`, whitespace, `[:`, `]` scaffolding (CASE 1) resp.
the word, whitespace, `[:`, `]` (CASE 2), so each loop iteration strictly
shortens the text. -/

theorem grabClose_len {s mid g : List Char} (h : grabClose s = some (mid, g)) :
    s.length = mid.length + g.length + 1 := by
  induction s generalizing mid with
  | nil => simp [grabClose] at h
  | cons c rest ih =>
    by_cases hc : c = ']'
    · simp [grabClose, hc] at h
      simp [← h.1, ← h.2]
    · by_cases hn : c = '\n'
      · simp [grabClose, hc, hn] at h
      · simp only [grabClose, if_neg hc, if_neg hn] at h
        rcases hg : grabClose rest with _ | ⟨m, g'⟩ <;> rw [hg] at h
        · simp at h
        · simp at h
          obtain ⟨h1, h2⟩ := h
          have := @ih m (by rw [hg, h2])
          simp [← h1, this]
          omega

theorem grabBracket_len {s g2 g3 : List Char}
    (h : grabBracket s = some (g2, g3)) :
    s.length = g2.length + g3.length + 1 ∧ 1 ≤ g2.length := by
  cases s with
  | nil => simp [grabBracket] at h
  | cons c rest =>
    by_cases hn : c = '\n'
    · simp [grabBracket, hn] at h
    · simp only [grabBracket, if_neg hn] at h
      rcases hg : grabClose rest with _ | ⟨m, g'⟩ <;> rw [hg] at h
      · simp at h
      · simp at h
        obtain ⟨h1, h2⟩ := h
        have := @grabClose_len rest m g' hg
        simp [← h1, ← h2, this]
        omega

theorem err1Head_len {rest g2 g3 : List Char}
    (h : err1Head rest = some (g2, g3)) :
    g2.length + g3.length + 4 ≤ rest.length := by
  rcases rest with _ | ⟨w, _ | ⟨x, _ | ⟨y, tail⟩⟩⟩
  · simp [err1Head] at h
  · simp [err1Head] at h
  · simp [err1Head] at h
  · simp only [err1Head] at h
    split at h
    · obtain ⟨e1, e2⟩ := grabBracket_len h
      simp only [List.length_cons]
      omega
    · simp at h

theorem err1Close_len {s g2 g3 : List Char}
    (h : err1Close s = some (g2, g3)) :
    g2.length + g3.length + 5 ≤ s.length := by
  induction s generalizing g2 g3 with
  | nil => simp [err1Close] at h
  | cons c rest ih =>
    by_cases hc : c = '>'
    · rw [err1Close, if_pos hc] at h
      rcases hh : err1Head rest with _ | ⟨a, b⟩ <;> rw [hh] at h
      · have := ih h
        simp; omega
      · simp at h
        obtain ⟨h1, h2⟩ := h
        have := @err1Head_len rest a b hh
        simp [← h1, ← h2]
        omega
    · by_cases hn : c = '\n'
      · simp [err1Close, hc, hn] at h
      · rw [err1Close, if_neg hc, if_neg hn] at h
        have := ih h
        simp; omega

theorem searchErr1_len {s g1 g2 g3 : List Char}
    (h : searchErr1 s = some (g1, g2, g3)) :
    g1.length + g2.length + g3.length + 7 ≤ s.length := by
  induction s generalizing g1 with
  | nil => simp [searchErr1] at h
  | cons c rest ih =>
    rw [searchErr1] at h
    rcases hs : searchErr1 rest with _ | ⟨a, b, d⟩ <;> rw [hs] at h
    · by_cases hc : c = '<'
      · rw [if_pos hc] at h
        rcases ha : err1After rest with _ | ⟨a, b⟩ <;> rw [ha] at h
        · simp at h
        · simp at h
          obtain ⟨h1, h2, h3⟩ := h
          subst h1; subst h2; subst h3
          cases rest with
          | nil => simp [err1After] at ha
          | cons d tail =>
            by_cases hd : d = '\n'
            · simp [err1After, hd] at ha
            · rw [err1After, if_neg hd] at ha
              have := err1Close_len ha
              simp only [List.length_cons, List.length_nil]
              omega
      · rw [if_neg hc] at h; simp at h
    · simp at h
      obtain ⟨h1, h2, h3⟩ := h
      subst h1; subst h2; subst h3
      have := @ih a hs
      simp only [List.length_cons]
      omega

theorem err2Head_len {rest g3 g4 : List Char}
    (h : err2Head rest = some (g3, g4)) :
    g3.length + g4.length + 3 ≤ rest.length := by
  rcases rest with _ | ⟨x, _ | ⟨y, tail⟩⟩
  · simp [err2Head] at h
  · simp [err2Head] at h
  · simp only [err2Head] at h
    split at h
    · obtain ⟨e1, e2⟩ := grabBracket_len h
      simp only [List.length_cons]
      omega
    · simp at h

theorem err2Go_len {g1 g3 g4 : List Char} :
    ∀ (s pre run : List Char), err2Go pre run s = some (g1, g3, g4) →
    g1.length + g3.length + g4.length + 5 ≤ pre.length + run.length + s.length := by
  intro s
  induction s with
  | nil => intro pre run h; simp [err2Go] at h
  | cons c rest ih =>
    intro pre run h
    rw [err2Go] at h
    by_cases hcond : run.length ≠ 0 ∧ isPyWs c
    · rw [if_pos hcond] at h
      rcases hg : err2Head rest with _ | ⟨a, b⟩ <;> rw [hg] at h
      · have := ih _ _ h
        simp at this ⊢
        omega
      · simp at h
        obtain ⟨h1, h2, h3⟩ := h
        subst h1; subst h2; subst h3
        have := @err2Head_len rest a b hg
        have hrun : 1 ≤ run.length := by
          rcases hcond with ⟨hr, _⟩
          omega
        simp only [List.length_cons, List.length_reverse]
        omega
    · rw [if_neg hcond] at h
      by_cases hw : isErrWordClass c
      · rw [if_pos hw] at h
        have := ih _ _ h
        simp at this ⊢
        omega
      · rw [if_neg hw] at h
        have := ih _ _ h
        simp at this ⊢
        omega

/-- Claim C7: for every input the pause total equals the sum of the four
sub-type counts (all counts being natural numbers, hence non-negative), and
on `"well (.) um (..) I (...) think"` `remove_pauses` returns one short, one
medium and one long pause, total three, with no parenthesized dot-run left
in the cleaned text (re-scanning the output finds zero pauses of any kind).
-/
theorem remove_pauses_sum_and_example :
    (∀ d : List Char,
      (remove_pauses d).2.nbPausesTotal =
        (remove_pauses d).2.nbPausesShort + (remove_pauses d).2.nbPausesMedium +
        (remove_pauses d).2.nbPausesLong + (remove_pauses d).2.nbPausesOther) ∧
    remove_pauses "well (.) um (..) I (...) think".data =
      ("well  um  I  think".data, ⟨3, 1, 1, 1, 0⟩) ∧
    (remove_pauses "well  um  I  think".data).2 = ⟨0, 0, 0, 0, 0⟩ := by
  refine ⟨fun d => ?_, by decide, by decide⟩
  simp [remove_pauses]

/-! ## Loop bounds and fixed points of `remove_errors` (claim C8) -/

theorem dropWhile_len {α : Type} (p : α → Bool) (l : List α) :
    (l.dropWhile p).length ≤ l.length := by
  induction l with
  | nil => simp
  | cons a t ih =>
    rw [List.dropWhile]
    split
    · simp only [List.length_cons]; omega
    · simp

theorem squeezeF_len : ∀ (fuel : Nat) (s : List Char),
    (squeezeF fuel s).length ≤ s.length := by
  intro fuel
  induction fuel with
  | zero => intro s; simp [squeezeF]
  | succ f ih =>
    intro s
    rcases s with _ | ⟨a, _ | ⟨b, rest⟩⟩
    · simp [squeezeF]
    · simp [squeezeF]
    · rw [squeezeF]
      split
      · have h1 := ih (rest.dropWhile isPyWs)
        have h2 := dropWhile_len isPyWs rest
        simp only [List.length_cons]
        omega
      · have h1 := ih (b :: rest)
        simp only [List.length_cons] at h1 ⊢
        omega

theorem errLoop1F_fix : ∀ (fuel : Nat) (s : List Char), s.length < fuel →
    searchErr1 (errLoop1F fuel s).1 = none := by
  intro fuel
  induction fuel with
  | zero => intro s h; omega
  | succ f ih =>
    intro s h
    rw [errLoop1F]
    rcases hs : searchErr1 s with _ | ⟨g1, g2, g3⟩
    · simpa using hs
    · have hlen := searchErr1_len hs
      have : (g1 ++ g2 ++ g3).length < f := by
        simp only [List.length_append]
        omega
      simpa using ih (g1 ++ g2 ++ g3) this

theorem errLoop2F_fix : ∀ (fuel : Nat) (s : List Char), s.length < fuel →
    searchErr2 (errLoop2F fuel s).1 = none := by
  intro fuel
  induction fuel with
  | zero => intro s h; omega
  | succ f ih =>
    intro s h
    rw [errLoop2F]
    rcases hs : searchErr2 s with _ | ⟨g1, g3, g4⟩
    · simpa using hs
    · have hlen := err2Go_len s [] [] hs
      have : (g1 ++ g3 ++ g4).length < f := by
        simp only [List.length_append]
        simp at hlen
        omega
      simpa using ih (g1 ++ g3 ++ g4) this

theorem errLoop1F_len : ∀ (fuel : Nat) (s : List Char),
    (errLoop1F fuel s).1.length + 7 * (errLoop1F fuel s).2 ≤ s.length := by
  intro fuel
  induction fuel with
  | zero => intro s; simp [errLoop1F]
  | succ f ih =>
    intro s
    rw [errLoop1F]
    rcases hs : searchErr1 s with _ | ⟨g1, g2, g3⟩
    · simp
    · have hlen := searchErr1_len hs
      have hrec := ih (g1 ++ g2 ++ g3)
      simp only [hs]
      simp only [List.length_append] at hrec hlen ⊢
      omega

theorem errLoop2F_len : ∀ (fuel : Nat) (s : List Char),
    (errLoop2F fuel s).1.length + 5 * (errLoop2F fuel s).2 ≤ s.length := by
  intro fuel
  induction fuel with
  | zero => intro s; simp [errLoop2F]
  | succ f ih =>
    intro s
    rw [errLoop2F]
    rcases hs : searchErr2 s with _ | ⟨g1, g3, g4⟩
    · simp
    · have hlen := err2Go_len s [] [] hs
      have hrec := ih (g1 ++ g3 ++ g4)
      simp only [hs]
      simp only [List.length_append, List.length_nil] at hrec hlen ⊢
      omega

/-- Claim C8 (amended): on every (newline-free) input `remove_errors`
terminates — its two rewrite loops run at most `length`-many times in total
because every rewrite strictly shortens the text — and when each loop
exits, its own pattern no longer matches the text at that point: the
single-word pattern (CASE 2) never matches the returned text, and the
bracketed-phrase pattern (CASE 1) does not match the intermediate text at
the moment loop 1 exits.  (The original claim also asserted that no
bracketed-phrase annotation remains in the *final* text; the counterexample
below refutes that: a loop-2 rewrite can re-expose a CASE 1 match.) -/
theorem remove_errors_amended (d : List Char) (_hnl : '\n' ∉ d) :
    (remove_errors d).2 ≤ d.length ∧
    searchErr1 (errLoop1F ((squeeze d).length + 1) (squeeze d)).1 = none ∧
    searchErr2 (remove_errors d).1 = none := by
  refine ⟨?_, ?_, ?_⟩
  · have h1 := errLoop1F_len ((squeeze d).length + 1) (squeeze d)
    have h2 := errLoop2F_len
      ((errLoop1F ((squeeze d).length + 1) (squeeze d)).1.length + 1)
      (errLoop1F ((squeeze d).length + 1) (squeeze d)).1
    have h3 := squeezeF_len (d.length + 1) d
    simp only [remove_errors, squeeze] at *
    omega
  · exact errLoop1F_fix _ _ (by omega)
  · exact errLoop2F_fix _ _ (by omega)

/-- Claim C8 (counterexample): the claim "on termination no single-word or
bracketed-phrase `[: replacement]` annotation remains" is false.  On the
input `"w [: <y> []: z] ."`, `remove_errors` terminates with the text
`" <y> [: z] ."`, in which the bracketed-phrase correction pattern
`(.*)<.+?>\s\[:(.+?)\](.*)` of CASE 1 still matches (`<y> [: z]` is a full
phrase-correction annotation): the loop-2 rewrite re-exposed it after
loop 1 had already finished. -/
theorem remove_errors_counterexample :
    remove_errors "w [: <y> []: z] .".data = (" <y> [: z] .".data, 1) ∧
    (searchErr1 " <y> [: z] .".data).isSome = true := by
  constructor
  · decide
  · decide

/-- Witness for `remove_errors_amended` at a concrete input. -/
theorem remove_errors_amended_witness :
    ('\n' ∉ "he had two mouses [: mice] .".data) ∧
    ((remove_errors "he had two mouses [: mice] .".data).2 ≤
      "he had two mouses [: mice] .".data.length ∧
     searchErr1 (errLoop1F ((squeeze "he had two mouses [: mice] .".data).length + 1)
       (squeeze "he had two mouses [: mice] .".data)).1 = none ∧
     searchErr2 (remove_errors "he had two mouses [: mice] .".data).1 = none) :=
  ⟨by decide, remove_errors_amended "he had two mouses [: mice] .".data (by decide)⟩

/-! ## Claims C10, C6, C4, C2 -/

theorem splitGo_tokens : ∀ (ts : List Tag) (curr : List Tag),
    splitGo (ts.map Entry.tok) curr = [] := by
  intro ts
  induction ts with
  | nil => intro curr; rfl
  | cons t more ih => intro curr; simpa [splitGo] using ih (curr ++ [t])

theorem splitGo_append_tokens : ∀ (l : List Entry) (ts : List Tag) (curr : List Tag),
    splitGo (l ++ ts.map Entry.tok) curr = splitGo l curr := by
  intro l
  induction l with
  | nil => intro ts curr; simpa [splitGo] using splitGo_tokens ts curr
  | cons e rest ih =>
    intro ts curr
    cases e with
    | tok t => simpa [splitGo] using ih ts (curr ++ [t])
    | sep => simpa [splitGo] using ih ts []

/-- Claim C10: the English `adjust_pos_tags` only processes tokens of
sentences closed by a non-`Tag` sentinel.  Appending any run of `Tag`
tokens with no closing sentinel to a tag stream leaves the result — output
stream *and* every adjustment counter — unchanged, and a stream consisting
only of unterminated tokens produces the empty output with untouched
counters. -/
theorem adjust_pos_tags_drops_trailing :
    (∀ (l : List Entry) (ts : List Tag) (r : Results),
      adjust_pos_tags (l ++ ts.map Entry.tok) r = adjust_pos_tags l r) ∧
    (∀ (ts : List Tag) (r : Results),
      adjust_pos_tags (ts.map Entry.tok) r = .ok ([], r)) := by
  constructor
  · intro l ts r
    unfold adjust_pos_tags
    rw [splitGo_append_tokens]
  · intro ts r
    unfold adjust_pos_tags
    rw [splitGo_tokens]
    rfl

/-- Claim C6: on the two-token sentence `[("'s","'s","ADP"),
("sleeping","sleep","NOUN")]` the specification expects
`[("'s","be","VERB"), ("sleeping","sleep","VERB")]` with `compose_count`
increased by 2, but the possessive-`'s` rule evaluates
`current_tag.certainty`, an attribute the `Tag` class of nlp_util.py does
not have (its `__init__` stores only `original`, `lemma`, `tag`), so
`compose_tagging` raises `AttributeError` instead of returning. -/
theorem compose_tagging_crashes_on_claimed_input :
    compose_tagging
      [⟨apostropheS, apostropheS, ADP_TAG⟩,
       ⟨"sleeping".data, "sleep".data, "NOUN".data⟩] 0 =
      .error .attributeError ∧
    compose_tagging [⟨"dog".data, "dog".data, "NOUN".data⟩] 5 =
      .ok ([⟨"dog".data, "dog".data, "NOUN".data⟩], 5) := by
  constructor
  · decide
  · decide

/-- Claim C4: on a file name that does not match the
`status_idParticipant-interviewNumber` convention, `re.search` returns
`None` and `extract_participant_info` raises `AttributeError` at
`re_participant_info.groups()` instead of printing its diagnostic and
returning (the `len(groups()) != 3` branch is dead code: a successful
search always has exactly three groups, as the second conjunct shows). -/
theorem extract_participant_info_crashes :
    extract_participant_info "README.txt".data = .error .attributeError ∧
    extract_participant_info "AD_101-1.txt".data =
      .ok ⟨"AD".data, "101".data, '1'⟩ := by
  constructor
  · decide
  · decide

/-- Claim C2: `reduce_synonyms` passes `re.IGNORECASE` (= 2) as the
`count` argument of `re.sub`, so the substitution is case-sensitive and
replaces at most two occurrences, while the returned count comes from the
case-insensitive unbounded `re.findall`.  On `"girl girl girl"` with the
mapping `{"women": ["girl"]}` it returns `("women women girl", 3)`: a
variant occurrence remains in the output and the count 3 differs from the
2 substitutions performed. -/
theorem reduce_synonyms_misses_occurrences :
    reduce_synonyms "girl girl girl".data [("women".data, ["girl".data])] =
      ("women women girl".data, 3) ∧
    containsSub "girl".data "women women girl".data = true := by
  constructor
  · decide
  · decide

/-! ## Structure of `clean_transcription` (claims C3 and C9) -/

theorem cleanT_drop (l : List Char) (rest : List (List Char))
    (synConf : Option (List (List Char × List (List Char))))
    (iconf econf : Option (List (List Char)))
    (h : lineSurvives iconf econf l = false) :
    clean_transcription (l :: rest) synConf iconf econf =
      clean_transcription rest synConf iconf econf := by
  unfold lineSurvives at h
  rcases h2 : (cleanLine iconf econf l).2 with _ | v
  · show cleanCons (cleanLine iconf econf l) synConf _ = _
    unfold cleanCons
    rw [h2]
  · rw [h2] at h; simp at h

theorem cleanT_none_shape (lines : List (List Char)) :
    clean_transcription lines none none none =
      .ok ((lines.filter (lineSurvives none none)).map
             (fun l => (cleanLine none none l).1),
           ((lines.filter (lineSurvives none none)).map
             (fun l => ((cleanLine none none l).2.getD []) ++ ['\n'])).flatten,
           []) := by
  induction lines with
  | nil => rfl
  | cons l rest ih =>
    rcases h2 : (cleanLine none none l).2 with _ | v
    · have hs : lineSurvives none none l = false := by
        unfold lineSurvives; rw [h2]; rfl
      rw [cleanT_drop l rest none none none hs, ih]
      simp [List.filter_cons, hs]
    · have hs : lineSurvives none none l = true := by
        unfold lineSurvives; rw [h2]; rfl
      show cleanCons (cleanLine none none l) none _ = _
      unfold cleanCons
      rw [h2, ih]
      simp [List.filter_cons, hs, h2, List.append_assoc, Except.map]

theorem cleanT_all_dropped (lines : List (List Char))
    (h : ∀ l ∈ lines, lineSurvives none none l = false) :
    clean_transcription lines none none none = .ok ([], [], []) := by
  rw [cleanT_none_shape]
  have : lines.filter (lineSurvives none none) = [] :=
    List.filter_eq_nil_iff.mpr (by simpa using h)
  rw [this]
  rfl

/-- Claim C3 (amended): a line that cleans to nothing is dropped by
`continue` *before* its measures record is appended, so it contributes
neither a record nor counts: removing it from the input leaves the whole
result unchanged, and the returned measures list has exactly one record
per *surviving* line (not per input line). -/
theorem clean_transcription_drop_amended :
    (∀ (l : List Char) (rest : List (List Char)) synConf iconf econf,
      lineSurvives iconf econf l = false →
      clean_transcription (l :: rest) synConf iconf econf =
        clean_transcription rest synConf iconf econf) ∧
    (∀ lines : List (List Char),
      clean_transcription lines none none none =
        .ok ((lines.filter (lineSurvives none none)).map
               (fun l => (cleanLine none none l).1),
             ((lines.filter (lineSurvives none none)).map
               (fun l => ((cleanLine none none l).2.getD []) ++ ['\n'])).flatten,
             [])) :=
  ⟨cleanT_drop, cleanT_none_shape⟩

/-- Claim C3 (counterexample): the line `"(.)"` cleans to empty, and
`clean_transcription` returns an *empty* measures list — no well-formed
zero-valued record is appended for the dropped line (the discarded
per-line record was not even zero-valued: it had counted one short
pause). -/
theorem clean_transcription_no_record_for_dropped :
    clean_transcription ["(.)".data] none none none = .ok ([], [], []) ∧
    (cleanLine none none "(.)".data).1.nbPausesShort = 1 := by
  constructor
  · decide
  · decide

/-- Witness for `clean_transcription_drop_amended` at a concrete input. -/
theorem clean_transcription_drop_amended_witness :
    lineSurvives none none "(.)".data = false ∧
    clean_transcription ["(.)".data, "The dog.".data] none none none =
      clean_transcription ["The dog.".data] none none none :=
  ⟨by decide,
   clean_transcription_drop_amended.1 "(.)".data ["The dog.".data]
     none none none (by decide)⟩

/-- Claim C9: the per-file ratio computation of `process_corpus` divides
each summed measure by the file's total word count with no zero guard, so
a file whose summed total word count is zero — in particular one all of
whose lines clean to empty, which yields an empty measures list — raises
`ZeroDivisionError`. -/
theorem process_ratio_zero_division :
    (∀ ms : List Measures, sumMeasure Measures.totalWordCount ms = 0 →
      processFileMeasures ms = .error .zeroDivisionError) ∧
    (∀ lines : List (List Char),
      (∀ l ∈ lines, lineSurvives none none l = false) →
      clean_transcription lines none none none = .ok ([], [], []) ∧
      processFileMeasures [] = .error .zeroDivisionError) := by
  constructor
  · intro ms h
    simp [processFileMeasures, h]
  · intro lines h
    exact ⟨cleanT_all_dropped lines h, by decide⟩

/-- Witness for `process_ratio_zero_division` at concrete inputs. -/
theorem process_ratio_zero_division_witness :
    (sumMeasure Measures.totalWordCount [zeroMeasures 0] = 0 ∧
     processFileMeasures [zeroMeasures 0] = .error .zeroDivisionError) ∧
    (clean_transcription ["(.)".data] none none none = .ok ([], [], []) ∧
     processFileMeasures [] = .error .zeroDivisionError) :=
  ⟨⟨by decide, process_ratio_zero_division.1 [zeroMeasures 0] (by decide)⟩,
   process_ratio_zero_division.2 ["(.)".data] (by decide)⟩

/-! ## Behaviour of `extract_looks_like` (claim C5) -/

theorem llGo_noTrigger : ∀ (s acc : List Tag) (lf itf af : Bool) (c : Nat),
    (∀ t ∈ s, t.«lemma» ≠ "like".data ∧ t.«lemma» ≠ "though".data ∧
              t.«lemma» ≠ "if".data) →
    llGo s acc lf itf af c = (acc ++ s, c) := by
  intro s
  induction s with
  | nil => intro acc lf itf af c _; simp [llGo]
  | cons t rest ih =>
    intro acc lf itf af c h
    obtain ⟨hl, hth, hif⟩ := h t (List.mem_cons_self t rest)
    have hrest := fun u hu => h u (List.mem_cons_of_mem t hu)
    rw [llGo]
    split_ifs with h1 h2 h3 h4 h5 <;>
      first
        | (exact absurd h3 hl)
        | (rcases h5 with h5 | h5
           · exact absurd h5 hth
           · exact absurd h5 hif)
        | (rw [ih _ _ _ _ _ hrest]; simp)

theorem llGo_no_thoughIf : ∀ (s acc : List Tag) (lf itf af : Bool) (c : Nat),
    (∀ t ∈ acc, t.«lemma» ≠ "though".data ∧ t.«lemma» ≠ "if".data) →
    ∀ t ∈ (llGo s acc lf itf af c).1,
      t.«lemma» ≠ "though".data ∧ t.«lemma» ≠ "if".data := by
  intro s
  induction s with
  | nil => intro acc lf itf af c h; simpa [llGo] using h
  | cons u rest ih =>
    intro acc lf itf af c h
    have hdrop : ∀ t ∈ acc.dropLast,
        t.«lemma» ≠ "though".data ∧ t.«lemma» ≠ "if".data :=
      fun t ht => h t (List.dropLast_subset acc ht)
    have hdrop2 : ∀ t ∈ acc.dropLast.dropLast,
        t.«lemma» ≠ "though".data ∧ t.«lemma» ≠ "if".data :=
      fun t ht => hdrop t (List.dropLast_subset acc.dropLast ht)
    have hdrop3 : ∀ t ∈ acc.dropLast.dropLast.dropLast,
        t.«lemma» ≠ "though".data ∧ t.«lemma» ≠ "if".data :=
      fun t ht => hdrop2 t (List.dropLast_subset acc.dropLast.dropLast ht)
    have happ : ∀ (hu : u.«lemma» ≠ "though".data ∧ u.«lemma» ≠ "if".data)
        (t : Tag), t ∈ acc ++ [u] →
        t.«lemma» ≠ "though".data ∧ t.«lemma» ≠ "if".data := by
      intro hu t ht
      rcases List.mem_append.mp ht with ht | ht
      · exact h t ht
      · rcases List.mem_singleton.mp ht with rfl
        exact hu
    by_cases h1 : u.«lemma» = "it".data
    · rw [llGo, if_pos h1]
      exact ih _ _ _ _ _ (happ ⟨by rw [h1]; decide, by rw [h1]; decide⟩)
    · by_cases h2 : u.«lemma» = "look".data
      · rw [llGo, if_neg h1, if_pos h2]
        exact ih _ _ _ _ _ (happ ⟨by rw [h2]; decide, by rw [h2]; decide⟩)
      · by_cases h3 : u.«lemma» = "like".data
        · rw [llGo, if_neg h1, if_neg h2, if_pos h3]
          by_cases hlf : lf = true
          · rw [if_pos hlf]
            by_cases hitf : itf = true
            · rw [if_pos hitf]; exact ih _ _ _ _ _ hdrop2
            · rw [if_neg hitf]; exact ih _ _ _ _ _ hdrop
          · rw [if_neg hlf]
            exact ih _ _ _ _ _ (happ ⟨by rw [h3]; decide, by rw [h3]; decide⟩)
        · by_cases h4 : u.«lemma» = "as".data
          · rw [llGo, if_neg h1, if_neg h2, if_neg h3, if_pos h4]
            by_cases hlf : lf = true
            · rw [if_pos hlf]
              exact ih _ _ _ _ _ (happ ⟨by rw [h4]; decide, by rw [h4]; decide⟩)
            · rw [if_neg hlf]
              exact ih _ _ _ _ _ (happ ⟨by rw [h4]; decide, by rw [h4]; decide⟩)
          · by_cases h5 : u.«lemma» = "though".data ∨ u.«lemma» = "if".data
            · rw [llGo, if_neg h1, if_neg h2, if_neg h3, if_neg h4, if_pos h5]
              by_cases haf : af = true
              · rw [if_pos haf]
                by_cases hitf : itf = true
                · rw [if_pos hitf]; exact ih _ _ _ _ _ hdrop3
                · rw [if_neg hitf]; exact ih _ _ _ _ _ hdrop2
              · rw [if_neg haf]; exact ih _ _ _ _ _ h
            · rw [llGo, if_neg h1, if_neg h2, if_neg h3, if_neg h4, if_neg h5]
              push_neg at h5
              exact ih _ _ _ _ _ (happ h5)

theorem dropLast_append₁ (l₁ l₂ : List Tag) (h : 1 ≤ l₂.length) :
    (l₁ ++ l₂).dropLast = l₁ ++ l₂.dropLast := by
  rw [List.dropLast_append_of_ne_nil]
  intro heq
  rw [heq] at h
  simp at h

theorem dropLast_append₂ (l₁ l₂ : List Tag) (h : 2 ≤ l₂.length) :
    (l₁ ++ l₂).dropLast.dropLast = l₁ ++ l₂.dropLast.dropLast := by
  rw [dropLast_append₁ l₁ l₂ (by omega)]
  rw [dropLast_append₁ l₁ l₂.dropLast (by rw [List.length_dropLast]; omega)]

theorem dropLast_append₃ (l₁ l₂ : List Tag) (h : 3 ≤ l₂.length) :
    (l₁ ++ l₂).dropLast.dropLast.dropLast =
      l₁ ++ l₂.dropLast.dropLast.dropLast := by
  rw [dropLast_append₂ l₁ l₂ (by omega)]
  rw [dropLast_append₁ l₁ l₂.dropLast.dropLast
    (by rw [List.length_dropLast, List.length_dropLast]; omega)]

theorem llReserve_set_it (lf itf af : Bool) :
    llReserve lf true af ≤ llReserve lf itf af + 1 := by
  cases lf <;> cases itf <;> cases af <;> decide

theorem llReserve_set_look (lf itf af : Bool) :
    llReserve true itf af ≤ llReserve lf itf af + 1 := by
  cases lf <;> cases itf <;> cases af <;> decide

theorem llReserve_set_as (itf af : Bool) :
    llReserve true itf true ≤ llReserve true itf af + 1 := by
  cases itf <;> cases af <;> decide

theorem llReserve_like_ge (itf af : Bool) :
    (if itf then 2 else 1) ≤ llReserve true itf af := by
  cases itf <;> cases af <;> decide

theorem llReserve_though_ge (lf itf : Bool) :
    (if itf then 3 else 2) ≤ llReserve lf itf true := by
  cases lf <;> cases itf <;> decide

/-- A protected prefix of the accumulator is never touched: the retroactive
deletions of `extract_looks_like` only reach tokens appended while the
current flags were being established. -/
theorem llGo_prefix : ∀ (s acc₁ acc₂ : List Tag) (lf itf af : Bool) (c : Nat),
    llReserve lf itf af ≤ acc₂.length →
    llGo s (acc₁ ++ acc₂) lf itf af c =
      (acc₁ ++ (llGo s acc₂ lf itf af c).1, (llGo s acc₂ lf itf af c).2) := by
  intro s
  induction s with
  | nil => intro acc₁ acc₂ lf itf af c _; simp [llGo]
  | cons u rest ih =>
    intro acc₁ acc₂ lf itf af c h
    by_cases h1 : u.«lemma» = "it".data
    · rw [llGo, if_pos h1, llGo, if_pos h1, List.append_assoc]
      refine ih acc₁ (acc₂ ++ [u]) lf true af c ?_
      have hb := llReserve_set_it lf itf af
      simp only [List.length_append, List.length_cons, List.length_nil]
      omega
    · by_cases h2 : u.«lemma» = "look".data
      · rw [llGo, if_neg h1, if_pos h2, llGo, if_neg h1, if_pos h2,
            List.append_assoc]
        refine ih acc₁ (acc₂ ++ [u]) true itf af c ?_
        have hb := llReserve_set_look lf itf af
        simp only [List.length_append, List.length_cons, List.length_nil]
        omega
      · by_cases h3 : u.«lemma» = "like".data
        · rw [llGo, if_neg h1, if_neg h2, if_pos h3, llGo, if_neg h1,
              if_neg h2, if_pos h3]
          by_cases hlf : lf = true
          · subst hlf
            rw [if_pos rfl, if_pos rfl]
            by_cases hitf : itf = true
            · subst hitf
              rw [if_pos rfl, if_pos rfl]
              have hlen : 2 ≤ acc₂.length :=
                le_trans (by cases af <;> decide) h
              rw [dropLast_append₂ acc₁ acc₂ hlen]
              refine ih acc₁ acc₂.dropLast.dropLast false false false (c + 2) ?_
              simp [llReserve]
            · have hif : itf = false := by revert hitf; cases itf <;> simp
              subst hif
              rw [if_neg (by simp), if_neg (by simp)]
              have hlen : 1 ≤ acc₂.length :=
                le_trans (by cases af <;> decide) h
              rw [dropLast_append₁ acc₁ acc₂ hlen]
              refine ih acc₁ acc₂.dropLast false false false (c + 1) ?_
              simp [llReserve]
          · have hlf' : lf = false := by revert hlf; cases lf <;> simp
            subst hlf'
            rw [if_neg (by simp), if_neg (by simp), List.append_assoc]
            refine ih acc₁ (acc₂ ++ [u]) false false false c ?_
            simp [llReserve]
        · by_cases h4 : u.«lemma» = "as".data
          · rw [llGo, if_neg h1, if_neg h2, if_neg h3, if_pos h4, llGo,
                if_neg h1, if_neg h2, if_neg h3, if_pos h4]
            by_cases hlf : lf = true
            · subst hlf
              rw [if_pos rfl, if_pos rfl, List.append_assoc]
              refine ih acc₁ (acc₂ ++ [u]) true itf true c ?_
              have hb := llReserve_set_as itf af
              simp only [List.length_append, List.length_cons, List.length_nil]
              omega
            · have hlf' : lf = false := by revert hlf; cases lf <;> simp
              subst hlf'
              rw [if_neg (by simp), if_neg (by simp), List.append_assoc]
              refine ih acc₁ (acc₂ ++ [u]) false itf af c ?_
              simp only [List.length_append, List.length_cons, List.length_nil]
              omega
          · by_cases h5 : u.«lemma» = "though".data ∨ u.«lemma» = "if".data
            · rw [llGo, if_neg h1, if_neg h2, if_neg h3, if_neg h4, if_pos h5,
                  llGo, if_neg h1, if_neg h2, if_neg h3, if_neg h4, if_pos h5]
              by_cases haf : af = true
              · subst haf
                rw [if_pos rfl, if_pos rfl]
                by_cases hitf : itf = true
                · subst hitf
                  rw [if_pos rfl, if_pos rfl]
                  have hlen : 3 ≤ acc₂.length :=
                    le_trans (by cases lf <;> decide) h
                  rw [dropLast_append₃ acc₁ acc₂ hlen]
                  refine ih acc₁ acc₂.dropLast.dropLast.dropLast
                    false false false (c + 3) ?_
                  simp [llReserve]
                · have hif : itf = false := by revert hitf; cases itf <;> simp
                  subst hif
                  rw [if_neg (by simp), if_neg (by simp)]
                  have hlen : 2 ≤ acc₂.length :=
                    le_trans (by cases lf <;> decide) h
                  rw [dropLast_append₂ acc₁ acc₂ hlen]
                  refine ih acc₁ acc₂.dropLast.dropLast false false false
                    (c + 2) ?_
                  simp [llReserve]
              · have haf' : af = false := by revert haf; cases af <;> simp
                subst haf'
                rw [if_neg (by simp), if_neg (by simp)]
                refine ih acc₁ acc₂ false false false c ?_
                simp [llReserve]
            · rw [llGo, if_neg h1, if_neg h2, if_neg h3, if_neg h4, if_neg h5,
                  llGo, if_neg h1, if_neg h2, if_neg h3, if_neg h4, if_neg h5,
                  List.append_assoc]
              refine ih acc₁ (acc₂ ++ [u]) false false false c ?_
              simp [llReserve]

theorem ll_looks_like (lk li : Tag) (s : List Tag) (c : Nat)
    (h1 : lk.«lemma» = "look".data) (h2 : li.«lemma» = "like".data) :
    extract_looks_like (lk :: li :: s) c = extract_looks_like s (c + 1) := by
  show llGo (lk :: li :: s) [] false false false c =
    llGo s [] false false false (c + 1)
  rw [llGo, if_neg (by rw [h1]; decide), if_pos h1]
  rw [llGo, if_neg (by rw [h2]; decide), if_neg (by rw [h2]; decide),
      if_pos h2, if_pos rfl, if_neg (by simp)]
  simp only [List.nil_append, List.dropLast_single]

theorem ll_it_looks_like (it lk li : Tag) (s : List Tag) (c : Nat)
    (h0 : it.«lemma» = "it".data) (h1 : lk.«lemma» = "look".data)
    (h2 : li.«lemma» = "like".data) :
    extract_looks_like (it :: lk :: li :: s) c = extract_looks_like s (c + 2) := by
  show llGo (it :: lk :: li :: s) [] false false false c =
    llGo s [] false false false (c + 2)
  rw [llGo, if_pos h0]
  rw [llGo, if_neg (by rw [h1]; decide), if_pos h1]
  rw [llGo, if_neg (by rw [h2]; decide), if_neg (by rw [h2]; decide),
      if_pos h2, if_pos rfl, if_pos rfl]
  simp

theorem ll_looks_as (lk az th : Tag) (s : List Tag) (c : Nat)
    (h1 : lk.«lemma» = "look".data) (h2 : az.«lemma» = "as".data)
    (h3 : th.«lemma» = "though".data ∨ th.«lemma» = "if".data) :
    extract_looks_like (lk :: az :: th :: s) c = extract_looks_like s (c + 2) := by
  have hth1 : th.«lemma» ≠ "it".data := by
    rcases h3 with h | h <;> rw [h] <;> decide
  have hth2 : th.«lemma» ≠ "look".data := by
    rcases h3 with h | h <;> rw [h] <;> decide
  have hth3 : th.«lemma» ≠ "like".data := by
    rcases h3 with h | h <;> rw [h] <;> decide
  have hth4 : th.«lemma» ≠ "as".data := by
    rcases h3 with h | h <;> rw [h] <;> decide
  show llGo (lk :: az :: th :: s) [] false false false c =
    llGo s [] false false false (c + 2)
  rw [llGo, if_neg (by rw [h1]; decide), if_pos h1]
  rw [llGo, if_neg (by rw [h2]; decide), if_neg (by rw [h2]; decide),
      if_neg (by rw [h2]; decide), if_pos h2, if_pos rfl]
  rw [llGo, if_neg hth1, if_neg hth2, if_neg hth3, if_neg hth4, if_pos h3,
      if_pos rfl, if_neg (by simp)]
  simp

theorem ll_it_looks_as (it lk az th : Tag) (s : List Tag) (c : Nat)
    (h0 : it.«lemma» = "it".data) (h1 : lk.«lemma» = "look".data)
    (h2 : az.«lemma» = "as".data)
    (h3 : th.«lemma» = "though".data ∨ th.«lemma» = "if".data) :
    extract_looks_like (it :: lk :: az :: th :: s) c =
      extract_looks_like s (c + 3) := by
  have hth1 : th.«lemma» ≠ "it".data := by
    rcases h3 with h | h <;> rw [h] <;> decide
  have hth2 : th.«lemma» ≠ "look".data := by
    rcases h3 with h | h <;> rw [h] <;> decide
  have hth3 : th.«lemma» ≠ "like".data := by
    rcases h3 with h | h <;> rw [h] <;> decide
  have hth4 : th.«lemma» ≠ "as".data := by
    rcases h3 with h | h <;> rw [h] <;> decide
  show llGo (it :: lk :: az :: th :: s) [] false false false c =
    llGo s [] false false false (c + 3)
  rw [llGo, if_pos h0]
  rw [llGo, if_neg (by rw [h1]; decide), if_pos h1]
  rw [llGo, if_neg (by rw [h2]; decide), if_neg (by rw [h2]; decide),
      if_neg (by rw [h2]; decide), if_pos h2, if_pos rfl]
  rw [llGo, if_neg hth1, if_neg hth2, if_neg hth3, if_neg hth4, if_pos h3,
      if_pos rfl, if_pos rfl]
  simp

theorem ll_stray_like (t : Tag) (s : List Tag) (c : Nat)
    (h : t.«lemma» = "like".data) :
    extract_looks_like (t :: s) c =
      (t :: (extract_looks_like s c).1, (extract_looks_like s c).2) := by
  show llGo (t :: s) [] false false false c =
    (t :: (llGo s [] false false false c).1, (llGo s [] false false false c).2)
  rw [llGo, if_neg (by rw [h]; decide), if_neg (by rw [h]; decide), if_pos h,
      if_neg (by simp)]
  have := llGo_prefix s [t] [] false false false c (by simp [llReserve])
  simp only [List.append_nil] at this
  rw [show (([] : List Tag) ++ [t]) = [t] by simp, this]
  simp

/-- Claim C5 (amended): `extract_looks_like` deletes the filler
constructions "looks like", "looks as though/if" and "it looks like/as
though/if" in their entirety (counting one adjustment per deleted token),
preserves in place any token sequence containing no `like`/`though`/`if`
lemma, and keeps a `like` token that is not preceded by `look`; however a
`though` or `if` token is itself *always* deleted from the output, even
when no look/as sequence precedes it (its preceding tokens are only
deleted when the as-flag sequence was matched).  The original claim's
assertion that an unmatched `though`/`if` token remains in the output is
refuted by the counterexample below. -/
theorem extract_looks_like_amended :
    (∀ (lk li : Tag) (s : List Tag) (c : Nat),
      lk.«lemma» = "look".data → li.«lemma» = "like".data →
      extract_looks_like (lk :: li :: s) c = extract_looks_like s (c + 1)) ∧
    (∀ (it lk li : Tag) (s : List Tag) (c : Nat),
      it.«lemma» = "it".data → lk.«lemma» = "look".data →
      li.«lemma» = "like".data →
      extract_looks_like (it :: lk :: li :: s) c =
        extract_looks_like s (c + 2)) ∧
    (∀ (lk az th : Tag) (s : List Tag) (c : Nat),
      lk.«lemma» = "look".data → az.«lemma» = "as".data →
      th.«lemma» = "though".data ∨ th.«lemma» = "if".data →
      extract_looks_like (lk :: az :: th :: s) c =
        extract_looks_like s (c + 2)) ∧
    (∀ (it lk az th : Tag) (s : List Tag) (c : Nat),
      it.«lemma» = "it".data → lk.«lemma» = "look".data →
      az.«lemma» = "as".data →
      th.«lemma» = "though".data ∨ th.«lemma» = "if".data →
      extract_looks_like (it :: lk :: az :: th :: s) c =
        extract_looks_like s (c + 3)) ∧
    (∀ (s : List Tag) (c : Nat),
      (∀ t ∈ s, t.«lemma» ≠ "like".data ∧ t.«lemma» ≠ "though".data ∧
                t.«lemma» ≠ "if".data) →
      extract_looks_like s c = (s, c)) ∧
    (∀ (s : List Tag) (c : Nat) (t : Tag),
      t ∈ (extract_looks_like s c).1 →
      t.«lemma» ≠ "though".data ∧ t.«lemma» ≠ "if".data) ∧
    (∀ (t : Tag) (s : List Tag) (c : Nat), t.«lemma» = "like".data →
      extract_looks_like (t :: s) c =
        (t :: (extract_looks_like s c).1, (extract_looks_like s c).2)) := by
  refine ⟨ll_looks_like, ll_it_looks_like, ll_looks_as, ll_it_looks_as,
    ?_, ?_, ll_stray_like⟩
  · intro s c h
    have := llGo_noTrigger s [] false false false c h
    simpa [extract_looks_like] using this
  · intro s c t ht
    exact llGo_no_thoughIf s [] false false false c (by simp) t ht

/-- Claim C5 (counterexample): a lone `if` token, preceded by no look/as
sequence, does *not* remain in the output: `extract_looks_like` drops every
`though`/`if` token unconditionally (the branch handling those lemmas never
appends the token). -/
theorem extract_looks_like_drops_lone_if :
    extract_looks_like [⟨"if".data, "if".data, "SCONJ".data⟩] 0 = ([], 0) := by
  decide

/-- Witness for `extract_looks_like_amended` at concrete inputs. -/
theorem extract_looks_like_amended_witness :
    (extract_looks_like
      [⟨"looks".data, "look".data, VERB_TAG⟩,
       ⟨"like".data, "like".data, ADP_TAG⟩,
       ⟨"dog".data, "dog".data, "NOUN".data⟩] 0 =
      extract_looks_like [⟨"dog".data, "dog".data, "NOUN".data⟩] 1) ∧
    (extract_looks_like
      [⟨"it".data, "it".data, "PRON".data⟩,
       ⟨"looks".data, "look".data, VERB_TAG⟩,
       ⟨"like".data, "like".data, ADP_TAG⟩] 0 =
      extract_looks_like [] 2) ∧
    (extract_looks_like
      [⟨"looks".data, "look".data, VERB_TAG⟩,
       ⟨"as".data, "as".data, ADP_TAG⟩,
       ⟨"though".data, "though".data, "SCONJ".data⟩] 0 =
      extract_looks_like [] 2) ∧
    (extract_looks_like
      [⟨"it".data, "it".data, "PRON".data⟩,
       ⟨"looks".data, "look".data, VERB_TAG⟩,
       ⟨"as".data, "as".data, ADP_TAG⟩,
       ⟨"if".data, "if".data, "SCONJ".data⟩] 0 =
      extract_looks_like [] 3) ∧
    (extract_looks_like [⟨"dog".data, "dog".data, "NOUN".data⟩] 4 =
      ([⟨"dog".data, "dog".data, "NOUN".data⟩], 4)) ∧
    ((⟨"dog".data, "dog".data, "NOUN".data⟩ : Tag).«lemma» ≠ "though".data ∧
     (⟨"dog".data, "dog".data, "NOUN".data⟩ : Tag).«lemma» ≠ "if".data) ∧
    (extract_looks_like
      [⟨"like".data, "like".data, ADP_TAG⟩,
       ⟨"dog".data, "dog".data, "NOUN".data⟩] 7 =
      (⟨"like".data, "like".data, ADP_TAG⟩ ::
        (extract_looks_like [⟨"dog".data, "dog".data, "NOUN".data⟩] 7).1,
       (extract_looks_like [⟨"dog".data, "dog".data, "NOUN".data⟩] 7).2)) :=
  ⟨extract_looks_like_amended.1 _ _ _ _ rfl rfl,
   extract_looks_like_amended.2.1 _ _ _ _ _ rfl rfl rfl,
   extract_looks_like_amended.2.2.1 _ _ _ _ _ rfl rfl (Or.inl rfl),
   extract_looks_like_amended.2.2.2.1 _ _ _ _ _ _ rfl rfl rfl (Or.inr rfl),
   extract_looks_like_amended.2.2.2.2.1 _ _ (by decide),
   extract_looks_like_amended.2.2.2.2.2.1
     [⟨"dog".data, "dog".data, "NOUN".data⟩] 0 _ (by decide),
   extract_looks_like_amended.2.2.2.2.2.2 _ _ _ rfl⟩

/-! ## No-op lemmas: a line free of a pattern is left unchanged by the
corresponding scanner (claim C1) -/

theorem squeezeF_noop : ∀ (fuel : Nat) (s : List Char),
    noDoubleWs s = true → squeezeF fuel s = s := by
  intro fuel
  induction fuel with
  | zero => intro s _; rfl
  | succ f ih =>
    intro s h
    rcases s with _ | ⟨a, _ | ⟨b, rest⟩⟩
    · rfl
    · rfl
    · simp only [noDoubleWs, Bool.and_eq_true, Bool.not_eq_true'] at h
      rw [squeezeF, if_neg (by simp [h.1])]
      rw [ih (b :: rest) h.2]

theorem squeeze_noop (s : List Char) (h : noDoubleWs s = true) :
    squeeze s = s :=
  squeezeF_noop _ s h

theorem scanShort_noop : ∀ (s : List Char), '(' ∉ s → scanShort s = (s, 0) := by
  intro s
  induction s with
  | nil => intro _; rfl
  | cons c rest ih =>
    intro h
    have hrest : '(' ∉ rest := fun hm => h (List.mem_cons_of_mem c hm)
    rw [scanShort.eq_def]
    split
    · rename_i rest' heq
      exact absurd
        (by rw [heq]; exact List.mem_cons_self _ _ : '(' ∈ c :: rest) h
    · rename_i c' rest' heq
      obtain ⟨h1, h2⟩ := List.cons.inj heq
      subst h1; subst h2
      rw [ih hrest]
    · simp at *

theorem scanMedium_noop : ∀ (s : List Char), '(' ∉ s →
    scanMedium s = (s, 0) := by
  intro s
  induction s with
  | nil => intro _; rfl
  | cons c rest ih =>
    intro h
    have hrest : '(' ∉ rest := fun hm => h (List.mem_cons_of_mem c hm)
    rw [scanMedium.eq_def]
    split
    · rename_i rest' heq
      exact absurd
        (by rw [heq]; exact List.mem_cons_self _ _ : '(' ∈ c :: rest) h
    · rename_i c' rest' heq
      obtain ⟨h1, h2⟩ := List.cons.inj heq
      subst h1; subst h2
      rw [ih hrest]
    · simp at *

theorem scanLong_noop : ∀ (s : List Char), '(' ∉ s → scanLong s = (s, 0) := by
  intro s
  induction s with
  | nil => intro _; rfl
  | cons c rest ih =>
    intro h
    have hrest : '(' ∉ rest := fun hm => h (List.mem_cons_of_mem c hm)
    rw [scanLong.eq_def]
    split
    · rename_i rest' heq
      exact absurd
        (by rw [heq]; exact List.mem_cons_self _ _ : '(' ∈ c :: rest) h
    · rename_i c' rest' heq
      obtain ⟨h1, h2⟩ := List.cons.inj heq
      subst h1; subst h2
      rw [ih hrest]
    · simp at *

theorem scanOtherF_noop (s : List Char) (h : '(' ∉ s) :
    ∀ g, scanOtherF g s = (s, 0) := by
  induction s with
  | nil => intro g; cases g <;> rfl
  | cons c rest ih =>
    have hc : c ≠ '(' :=
      fun hce => h (by rw [hce]; exact List.mem_cons_self _ _)
    have hrest : '(' ∉ rest := fun hm => h (List.mem_cons_of_mem c hm)
    intro g
    cases g with
    | zero => rfl
    | succ f =>
      rw [scanOtherF.eq_def]
      split
      · simp at *
      · rename_i heq
        obtain ⟨h1, _⟩ := List.cons.inj heq
        exact absurd h1 hc
      · rename_i heq
        obtain ⟨h1, h2⟩ := List.cons.inj heq
        subst h1; subst h2
        simp only [ih hrest]
      · rename_i heq
        simp at heq

theorem remove_pauses_noop (s : List Char) (hws : noDoubleWs s = true)
    (hp : '(' ∉ s) : remove_pauses s = (s, ⟨0, 0, 0, 0, 0⟩) := by
  simp only [remove_pauses, squeeze_noop s hws, scanShort_noop s hp,
    scanMedium_noop s hp, scanLong_noop s hp, scanOtherF_noop s hp]

theorem remove_parentheses_noop (s : List Char) (hws : noDoubleWs s = true)
    (hp : '(' ∉ s) (hq : ')' ∉ s) : remove_parentheses s = s := by
  unfold remove_parentheses
  rw [squeeze_noop s hws]
  apply List.filter_eq_self.mpr
  intro c hc
  simp only [Bool.not_eq_true', Bool.or_eq_false_iff]
  constructor
  · simp only [decide_eq_false_iff_not]
    intro heq; subst heq; exact hp hc
  · simp only [decide_eq_false_iff_not]
    intro heq; subst heq; exact hq hc

theorem ampScanF_noop (s : List Char) (h : '&' ∉ s) :
    ∀ g, ampScanF g s = (s, 0) := by
  induction s with
  | nil => intro g; cases g <;> rfl
  | cons c rest ih =>
    have hc : c ≠ '&' :=
      fun hce => h (by rw [hce]; exact List.mem_cons_self _ _)
    have hrest : '&' ∉ rest := fun hm => h (List.mem_cons_of_mem c hm)
    intro g
    cases g with
    | zero => rfl
    | succ f =>
      rw [ampScanF.eq_def]
      split
      · simp at *
      · rename_i heq
        obtain ⟨h1, _⟩ := List.cons.inj heq
        exact absurd h1 hc
      · rename_i heq
        obtain ⟨h1, h2⟩ := List.cons.inj heq
        subst h1; subst h2
        simp only [ih hrest]
      · rename_i heq
        simp at heq

theorem ellipsisScan_noop : ∀ (s : List Char), noTripleDot s = true →
    ellipsisScan s = (s, 0) := by
  intro s
  induction s with
  | nil => intro _; rfl
  | cons c rest ih =>
    intro h
    have hrest : noTripleDot rest = true := by
      rcases rest with _ | ⟨b, _ | ⟨d, r⟩⟩
      · rfl
      · rfl
      · simp only [noTripleDot, Bool.and_eq_true] at h ⊢
        exact h.2
    rw [ellipsisScan.eq_def]
    split
    · rename_i rest' heq
      rcases rest with _ | ⟨b, _ | ⟨d, r⟩⟩ <;> simp at heq
      obtain ⟨h1, h2, h3⟩ := heq
      simp [noTripleDot, h1, h2, h3] at h
    · rename_i c' rest' heq
      obtain ⟨h1, h2⟩ := List.cons.inj heq
      subst h1; subst h2
      rw [ih hrest]
    · simp at *

theorem remove_incomplete_noop (s : List Char) (hws : noDoubleWs s = true)
    (ha : '&' ∉ s) (hd : noTripleDot s = true) :
    remove_incomplete_words_and_phrases s = (s, 0, 0) := by
  simp only [remove_incomplete_words_and_phrases, squeeze_noop s hws,
    ampScanF_noop s ha, ellipsisScan_noop s hd]

theorem searchErr1_noop : ∀ (s : List Char), '<' ∉ s → searchErr1 s = none := by
  intro s
  induction s with
  | nil => intro _; rfl
  | cons c rest ih =>
    intro h
    have hc : c ≠ '<' :=
      fun hce => h (by rw [hce]; exact List.mem_cons_self _ _)
    have hrest : '<' ∉ rest := fun hm => h (List.mem_cons_of_mem c hm)
    simp [searchErr1, ih hrest, hc]

theorem err2Head_noop (rest : List Char) (h : '[' ∉ rest) :
    err2Head rest = none := by
  unfold err2Head
  split
  · rename_i x y tail
    apply if_neg
    intro hand
    apply h
    rw [← hand.1]
    exact List.mem_cons_self _ _
  · rfl

theorem err2Go_noop : ∀ (s pre run : List Char), '[' ∉ s →
    err2Go pre run s = none := by
  intro s
  induction s with
  | nil => intro pre run _; rfl
  | cons c rest ih =>
    intro pre run h
    have hrest : '[' ∉ rest := fun hm => h (List.mem_cons_of_mem c hm)
    rw [err2Go]
    by_cases h1 : run.length ≠ 0 ∧ isPyWs c = true
    · rw [if_pos h1, err2Head_noop rest hrest]
      exact ih _ _ hrest
    · rw [if_neg h1]
      by_cases h2 : isErrWordClass c = true
      · rw [if_pos h2]; exact ih _ _ hrest
      · rw [if_neg h2]; exact ih _ _ hrest

theorem errLoop1F_noop (s : List Char) (h : searchErr1 s = none) :
    ∀ g, errLoop1F g s = (s, 0) := by
  intro g
  cases g with
  | zero => rfl
  | succ f => rw [errLoop1F, h]

theorem errLoop2F_noop (s : List Char) (h : searchErr2 s = none) :
    ∀ g, errLoop2F g s = (s, 0) := by
  intro g
  cases g with
  | zero => rfl
  | succ f => rw [errLoop2F, h]

theorem remove_errors_noop (s : List Char) (hws : noDoubleWs s = true)
    (h1 : '<' ∉ s) (h2 : '[' ∉ s) : remove_errors s = (s, 0) := by
  simp only [remove_errors, squeeze_noop s hws,
    errLoop1F_noop s (searchErr1_noop s h1),
    errLoop2F_noop s (err2Go_noop s [] [] h2)]

theorem repAngleScanF_noop (mark : List Char) (s : List Char) (h : '<' ∉ s) :
    ∀ g, repAngleScanF mark g s = (s, 0) := by
  induction s with
  | nil => intro g; cases g <;> rfl
  | cons c rest ih =>
    have hc : c ≠ '<' :=
      fun hce => h (by rw [hce]; exact List.mem_cons_self _ _)
    have hrest : '<' ∉ rest := fun hm => h (List.mem_cons_of_mem c hm)
    intro g
    cases g with
    | zero => rfl
    | succ f =>
      rw [repAngleScanF.eq_def]
      split
      · simp at *
      · rename_i heq
        obtain ⟨h1, _⟩ := List.cons.inj heq
        exact absurd h1 hc
      · rename_i heq
        obtain ⟨h1, h2⟩ := List.cons.inj heq
        subst h1; subst h2
        simp only [ih hrest]
      · rename_i heq
        simp at heq

theorem repWordScanF_noop (mark : List Char) :
    ∀ (n : Nat) (s : List Char), s.length ≤ n → '[' ∉ s →
      ∀ g, repWordScanF mark g s = (s, 0) := by
  intro n
  induction n with
  | zero =>
    intro s hlen _ g
    rcases s with _ | ⟨c, rest⟩
    · cases g <;> rfl
    · simp at hlen
  | succ n ih =>
    intro s hlen h g
    rcases s with _ | ⟨c, rest⟩
    · cases g <;> rfl
    · cases g with
      | zero => rfl
      | succ f =>
        have hrest : '[' ∉ rest := fun hm => h (List.mem_cons_of_mem c hm)
        have hlenrest : rest.length ≤ n := by
          simp only [List.length_cons] at hlen; omega
        rw [repWordScanF.eq_def]
        split
        · simp at *
        · rename_i heq
          obtain ⟨h1, h2⟩ := List.cons.inj heq
          subst h1; subst h2
          by_cases hw : isErrWordClass c = true
          · have hsubafter : '[' ∉ (c :: rest).dropWhile isErrWordClass :=
              fun hm => h ((List.dropWhile_sublist _).subset hm)
            have hlenafter :
                ((c :: rest).dropWhile isErrWordClass).length ≤ n := by
              have hd := dropWhile_len isErrWordClass rest
              rw [List.dropWhile_cons, if_pos hw]
              omega
            have hfalse :
                ¬(((c :: rest).dropWhile isErrWordClass).take (mark.length + 3)
                  = ' ' :: '[' :: (mark ++ [']'])) := by
              intro heq2
              apply hsubafter
              apply (List.take_sublist _ _).subset
              rw [heq2]
              exact List.mem_cons_of_mem _ (List.mem_cons_self _ _)
            simp only [hw, if_true, if_neg hfalse,
              ih _ hlenafter hsubafter, List.takeWhile_append_dropWhile]
          · rw [Bool.not_eq_true] at hw
            simp only [hw, Bool.false_eq_true, if_false,
              ih rest hlenrest hrest]
        · rename_i heq
          simp at heq

theorem rep3SubCheck_noop (s : List Char) (h : ',' ∉ s) (n : Nat) :
    rep3SubCheck s n = none := by
  unfold rep3SubCheck
  split
  · rename_i rest2 heq
    exact absurd
      ((List.drop_subset n s)
        (by rw [heq]; exact List.mem_cons_self _ _ : ',' ∈ s.drop n)) h
  · rfl

theorem rep3SubTryM_noop (s : List Char) (h : ',' ∉ s) (r : Nat) :
    ∀ m, rep3SubTryM s r m = none := by
  intro m
  induction m with
  | zero => simp [rep3SubTryM, rep3SubCheck_noop s h]
  | succ m ih => simp [rep3SubTryM, rep3SubCheck_noop s h, ih]

theorem rep3SubTryR_noop (s : List Char) (h : ',' ∉ s) :
    ∀ r, rep3SubTryR s r = none := by
  intro r
  induction r with
  | zero => rfl
  | succ r ih => simp [rep3SubTryR, rep3SubTryM_noop s h, ih]

theorem rep3SubF_noop (s : List Char) (h : ',' ∉ s) :
    ∀ g prev, rep3SubF g prev s = s := by
  induction s with
  | nil => intro g prev; cases g <;> rfl
  | cons c rest ih =>
    intro g prev
    have hrest : ',' ∉ rest := fun hm => h (List.mem_cons_of_mem c hm)
    cases g with
    | zero => rfl
    | succ f =>
      rw [rep3SubF]
      by_cases hcond : isRep3Class c = true ∧ atBoundary prev c = true
      · simp only [hcond.1, hcond.2, and_self, if_true,
          rep3SubTryR_noop (c :: rest) h, ih hrest]
      · rw [if_neg hcond, ih hrest]

theorem remove_repetitions_noop (s : List Char) (hws : noDoubleWs s = true)
    (hlt : '<' ∉ s) (hbr : '[' ∉ s) (hcm : ',' ∉ s)
    (hr3 : rep3CountF (s.length + 1) none s = 0) :
    remove_repetitions s = (s, 0) := by
  simp only [remove_repetitions, squeeze_noop s hws,
    repAngleScanF_noop _ s hlt,
    repWordScanF_noop _ s.length s (Nat.le_refl _) hbr,
    rep3SubF_noop s hcm, hr3]

theorem remove_retracings_noop (s : List Char) (hws : noDoubleWs s = true)
    (hlt : '<' ∉ s) (hbr : '[' ∉ s) : remove_retracings s = (s, 0) := by
  simp only [remove_retracings, squeeze_noop s hws,
    repAngleScanF_noop _ s hlt,
    repWordScanF_noop _ s.length s (Nat.le_refl _) hbr]

/-! Per-character facts about clean characters, used by the marker stage. -/

theorem clean_not_sym (c : Char) (h : isCleanChar c = true) :
    isSymCls c = false := by
  by_contra hs
  rw [Bool.not_eq_false] at hs
  simp only [isSymCls, Bool.or_eq_true, decide_eq_true_eq] at hs
  rcases hs with ((((((rfl | rfl) | rfl) | rfl) | rfl) | rfl) | rfl) | rfl <;>
    exact absurd h (by decide)

theorem clean_allowed (c : Char) (h : isCleanChar c = true) :
    isAllowedChar c = true := by
  simp only [isCleanChar, Bool.or_eq_true, Bool.and_eq_true,
    decide_eq_true_eq] at h
  rcases h with ((((((((hl | hd) | rfl) | rfl) | rfl) | rfl) | rfl) | rfl) | rfl)
  · simp [isAllowedChar, hl]
  · have hdig : isAsciiDigit c = true := by
      simp only [isAsciiDigit, Bool.and_eq_true, decide_eq_true_eq]
      omega
    simp [isAllowedChar, hdig]
  · decide
  · decide
  · decide
  · decide
  · decide
  · decide
  · decide

theorem clean_ne (c t : Char) (h : isCleanChar c = true)
    (ht : isCleanChar t = false) : c ≠ t :=
  fun he => by rw [he] at h; rw [h] at ht; exact Bool.noConfusion ht

theorem clean_not_mem (s : List Char) (hall : ∀ c ∈ s, isCleanChar c = true)
    (t : Char) (ht : isCleanChar t = false) : t ∉ s :=
  fun hm => absurd (hall t hm) (by rw [ht]; exact Bool.false_ne_true)

theorem plusJoinerF_noop :
    ∀ (n : Nat) (s : List Char), s.length ≤ n → '+' ∉ s →
      ∀ g, plusJoinerF g s = s := by
  intro n
  induction n with
  | zero =>
    intro s hlen _ g
    rcases s with _ | ⟨c, rest⟩
    · cases g <;> rfl
    · simp at hlen
  | succ n ih =>
    intro s hlen h g
    rcases s with _ | ⟨c, rest⟩
    · cases g <;> rfl
    · cases g with
      | zero => rfl
      | succ f =>
        have hrest : '+' ∉ rest := fun hm => h (List.mem_cons_of_mem c hm)
        have hlenrest : rest.length ≤ n := by
          simp only [List.length_cons] at hlen; omega
        rw [plusJoinerF.eq_def]
        split
        · simp at *
        · rename_i heq
          obtain ⟨h1, h2⟩ := List.cons.inj heq
          subst h1; subst h2
          by_cases hw : isAsciiLower c = true
          · have hsubafter : '+' ∉ (c :: rest).dropWhile isAsciiLower :=
              fun hm => h ((List.dropWhile_sublist _).subset hm)
            have hlenafter :
                ((c :: rest).dropWhile isAsciiLower).length ≤ n := by
              have hd := dropWhile_len isAsciiLower rest
              rw [List.dropWhile_cons, if_pos hw]
              omega
            simp only [hw, if_true]
            split
            · rename_i d after2 heq2
              exact absurd
                (hsubafter (by rw [heq2]; exact List.mem_cons_self _ _)) id
            · rw [ih _ hlenafter hsubafter _,
                List.takeWhile_append_dropWhile]
          · rw [Bool.not_eq_true] at hw
            simp only [hw, Bool.false_eq_true, if_false,
              ih rest hlenrest hrest]
        · rename_i heq
          simp at heq

theorem markerAltF_noop (s : List Char)
    (hall : ∀ c ∈ s, isCleanChar c = true) :
    ∀ g b, markerAltF g b s = s := by
  induction s with
  | nil => intro g b; cases g <;> rfl
  | cons c rest ih =>
    intro g b
    have hc : isCleanChar c = true := hall c (List.mem_cons_self _ _)
    have hrest : ∀ d ∈ rest, isCleanChar d = true :=
      fun d hd => hall d (List.mem_cons_of_mem c hd)
    have hplus : c ≠ '+' := clean_ne c '+' hc (by decide)
    have hcomma : c ≠ ',' := clean_ne c ',' hc (by decide)
    have hbr : c ≠ '[' := clean_ne c '[' hc (by decide)
    have hlt : c ≠ '<' := clean_ne c '<' hc (by decide)
    have hamp : c ≠ '&' := clean_ne c '&' hc (by decide)
    have hnak : c ≠ nak := clean_ne c nak hc (by decide)
    have hsym : isSymCls c = false := clean_not_sym c hc
    cases g with
    | zero => rfl
    | succ f =>
      rw [markerAltF.eq_def]
      split
      · simp at *
      · split
        · rename_i heq
          simp at heq
        · rename_i heq
          obtain ⟨h1, h2⟩ := List.cons.inj heq
          subst h1; subst h2
          rw [if_neg (fun hy => hplus hy.2.1)]
          rw [if_neg (fun hy => hcomma hy.2)]
          rw [if_neg hbr, if_neg hlt]
          rw [if_neg (by simp [hsym])]
          rw [if_neg (fun hy => hamp hy.1)]
          rw [if_neg hnak, ih hrest]

theorem zeroPrefixScan_noop (s : List Char) (h : '0' ∉ s) :
    ∀ prev, zeroPrefixScan prev s = s := by
  induction s with
  | nil => intro prev; rfl
  | cons c rest ih =>
    intro prev
    have hc : c ≠ '0' :=
      fun hce => h (by rw [hce]; exact List.mem_cons_self _ _)
    have hrest : '0' ∉ rest := fun hm => h (List.mem_cons_of_mem c hm)
    rw [zeroPrefixScan.eq_def]
    split
    · rename_i heq
      obtain ⟨h1, _⟩ := List.cons.inj heq
      exact absurd h1 hc
    · rename_i heq
      obtain ⟨h1, h2⟩ := List.cons.inj heq
      subst h1; subst h2
      rw [ih hrest]
    · simp at *

theorem clean_filter_allowed (s : List Char)
    (hall : ∀ c ∈ s, isCleanChar c = true) : s.filter isAllowedChar = s :=
  List.filter_eq_self.mpr (fun c hc => clean_allowed c (hall c hc))

theorem remove_markers_noop (s : List Char) (hws : noDoubleWs s = true)
    (hall : ∀ c ∈ s, isCleanChar c = true) :
    remove_markers_and_symbols s = s := by
  have hplus : '+' ∉ s := clean_not_mem s hall '+' (by decide)
  have hzero : '0' ∉ s := clean_not_mem s hall '0' (by decide)
  simp only [remove_markers_and_symbols, squeeze_noop s hws,
    plusJoinerF_noop s.length s (Nat.le_refl _) hplus,
    markerAltF_noop s hall, clean_filter_allowed s hall,
    zeroPrefixScan_noop s hzero]

/-! No-op lemmas for `normalize_sentence` on a clean line. -/

theorem dropWhile_eq_self_of_head {p : Char → Bool} {s : List Char}
    (h : ∀ c, s.head? = some c → p c = false) : s.dropWhile p = s := by
  cases s with
  | nil => rfl
  | cons a t =>
    rw [List.dropWhile_cons, h a rfl]
    simp

theorem upper_not_ws (c : Char) (h : isAsciiUpper c = true) :
    isPyWs c = false := by
  by_contra hw
  rw [Bool.not_eq_false] at hw
  simp only [isPyWs, Bool.or_eq_true, decide_eq_true_eq] at hw
  rcases hw with ((((rfl | rfl) | rfl) | rfl) | rfl) | rfl <;>
    exact absurd h (by decide)

theorem pyStrip_noop (s : List Char)
    (h1 : ∀ c, s.head? = some c → isPyWs c = false)
    (h2 : ∀ c, s.getLast? = some c → isPyWs c = false) :
    pyStrip s = s := by
  unfold pyStrip
  rw [dropWhile_eq_self_of_head h1]
  rw [dropWhile_eq_self_of_head (fun c hh => h2 c (by rw [← List.head?_reverse]; exact hh))]
  exact List.reverse_reverse s

theorem pyUpperChar_upper (c : Char) (h : isAsciiUpper c = true) :
    pyUpperChar c = c := by
  simp only [isAsciiUpper, Bool.and_eq_true, decide_eq_true_eq] at h
  have hA : ¬ isAsciiLower c = true := by
    simp only [isAsciiLower, Bool.and_eq_true, decide_eq_true_eq]
    omega
  have hB : ¬ (0xE0 ≤ c.toNat ∧ c.toNat ≤ 0xFE ∧ c.toNat ≠ 0xF7) := by omega
  have hC : ¬ (c.toNat = 0xFF) := by omega
  rw [pyUpperChar, if_neg hA, if_neg hB, if_neg hC]

theorem map_underscore_noop (s : List Char) (h : '_' ∉ s) :
    s.map (fun c => if c = '_' then ' ' else c) = s := by
  induction s with
  | nil => rfl
  | cons c rest ih =>
    have hc : c ≠ '_' :=
      fun hce => h (by rw [hce]; exact List.mem_cons_self _ _)
    have hrest : '_' ∉ rest := fun hm => h (List.mem_cons_of_mem c hm)
    simp [ih hrest, hc]

theorem noPair_tail {a b x : Char} {s : List Char}
    (h : noPair a b (x :: s) = true) : noPair a b s = true := by
  cases s with
  | nil => rfl
  | cons y r =>
    simp only [noPair, Bool.and_eq_true] at h
    exact h.2

theorem delSpaceBefore_noop (t : Char) :
    ∀ (s : List Char), noPair ' ' t s = true → delSpaceBefore t s = s := by
  intro s
  induction s with
  | nil => intro _; rfl
  | cons a tail ih =>
    intro h
    have htail : noPair ' ' t tail = true := noPair_tail h
    rw [delSpaceBefore.eq_def]
    split
    · rename_i c rest heq
      obtain ⟨h1, h2⟩ := List.cons.inj heq
      subst h1; subst h2
      have hct : ¬(c = t) := by
        simp only [noPair, Bool.and_eq_true, Bool.not_eq_true',
          Bool.and_eq_false_iff, decide_eq_false_iff_not] at h
        rcases h.1 with hsp | hct
        · exact absurd trivial hsp
        · exact hct
      rw [if_neg hct, ih htail]
    · rename_i c rest heq
      obtain ⟨h1, h2⟩ := List.cons.inj heq
      subst h1; subst h2
      rw [ih htail]
    · simp at *

theorem normalize_sentence_noop (s : List Char)
    (hws : noDoubleWs s = true)
    (hhead : (match s.head? with
              | some h => isAsciiUpper h
              | none => false) = true)
    (hlast : s.getLast? = some '.' ∨ s.getLast? = some '?' ∨
             s.getLast? = some '!')
    (hund : '_' ∉ s)
    (hp1 : noPair ' ' '.' s = true) (hp2 : noPair ' ' ',' s = true)
    (hp3 : noPair ' ' '?' s = true) :
    normalize_sentence s = some s := by
  obtain ⟨h0, t, rfl⟩ : ∃ h0 t, s = h0 :: t := by
    cases s with
    | nil => simp at hhead
    | cons a t => exact ⟨a, t, rfl⟩
  have hup : isAsciiUpper h0 = true := by simpa using hhead
  have hnwsh : ∀ c, (h0 :: t).head? = some c → isPyWs c = false := by
    intro c hc
    simp only [List.head?_cons, Option.some.injEq] at hc
    subst hc
    exact upper_not_ws _ hup
  have hnwsl : ∀ c, (h0 :: t).getLast? = some c → isPyWs c = false := by
    intro c hc
    rcases hlast with hl | hl | hl <;> rw [hl] at hc <;>
      (injection hc with hce; subst hce; decide)
  have hany : (h0 :: t).any isAsciiLetter = true := by
    simp [List.any_cons, isAsciiLetter, hup]
  simp only [normalize_sentence, squeeze_noop _ hws,
    pyStrip_noop _ hnwsh hnwsl, pyUpperChar_upper h0 hup,
    map_underscore_noop _ hund, delSpaceBefore_noop '.' _ hp1,
    delSpaceBefore_noop ',' _ hp2, delSpaceBefore_noop '?' _ hp3,
    if_pos hlast, hany, if_true]

theorem cleanLine_clean (s : List Char) (h : isCleanLine s = true) :
    remove_markers_and_symbols s = s ∧
    normalize_sentence s = some s ∧
    cleanLine none none s = (zeroMeasures (totalWordCount s), some s) := by
  simp only [isCleanLine, Bool.and_eq_true, beq_iff_eq] at h
  obtain ⟨⟨⟨⟨⟨⟨⟨⟨hhead, hlast⟩, hallb⟩, hws⟩, hp1⟩, hp2⟩, hp3⟩, htd⟩, hr3⟩ := h
  have hall : ∀ c ∈ s, isCleanChar c = true := by
    rw [List.all_eq_true] at hallb
    exact fun c hc => hallb c hc
  have hlast' : s.getLast? = some '.' ∨ s.getLast? = some '?' ∨
      s.getLast? = some '!' := by
    simp only [Bool.or_eq_true, decide_eq_true_eq] at hlast
    tauto
  have hpar : '(' ∉ s := clean_not_mem s hall '(' (by decide)
  have hparc : ')' ∉ s := clean_not_mem s hall ')' (by decide)
  have hamp : '&' ∉ s := clean_not_mem s hall '&' (by decide)
  have hlt : '<' ∉ s := clean_not_mem s hall '<' (by decide)
  have hbr : '[' ∉ s := clean_not_mem s hall '[' (by decide)
  have hcm : ',' ∉ s := clean_not_mem s hall ',' (by decide)
  have hund : '_' ∉ s := clean_not_mem s hall '_' (by decide)
  have hmk : remove_markers_and_symbols s = s := remove_markers_noop s hws hall
  have hns : normalize_sentence s = some s :=
    normalize_sentence_noop s hws hhead hlast' hund hp1 hp2 hp3
  refine ⟨hmk, hns, ?_⟩
  simp only [cleanLine,
    remove_pauses_noop s hws hpar,
    remove_parentheses_noop s hws hpar hparc,
    remove_incomplete_noop s hws hamp htd,
    remove_errors_noop s hws hlt hbr,
    remove_repetitions_noop s hws hlt hbr hcm hr3,
    remove_retracings_noop s hws hlt hbr,
    hmk, hns, zeroMeasures]

/-- **C1** (amended).  The claim as stated is false (see
`clean_pipeline_counts_plain_repetition`): a line free of every marker
pattern and of disallowed characters can still make the text-repetition
counter of `remove_repetitions` fire, so not every marker counter is zero.
The amended statement strengthens "already clean" to `isCleanLine`, which
additionally requires that the repeated-word counting pattern
`(\b\w+\b\s*)+\,*(?=.*\1)` has no match in the line (and excludes commas,
the trigger of its substitution pattern).  Under that hypothesis the claim
holds: `remove_markers_and_symbols` returns the line unchanged, the whole
pipeline of `clean_transcription` keeps the text and reports all-zero
marker counters, and the recorded total word count is the line's word
count. -/
theorem clean_pipeline_idempotent_amended (s : List Char)
    (h : isCleanLine s = true) :
    remove_markers_and_symbols s = s ∧
    cleanLine none none s = (zeroMeasures (totalWordCount s), some s) ∧
    clean_transcription [s] none none none =
      Except.ok ([zeroMeasures (totalWordCount s)], s ++ ['\n'], []) := by
  obtain ⟨hmk, hns, hcl⟩ := cleanLine_clean s h
  refine ⟨hmk, hcl, ?_⟩
  show cleanCons (cleanLine none none s) none
      (clean_transcription [] none none none) = _
  rw [hcl]
  rfl

/-- Closed witness for `clean_pipeline_idempotent_amended` at the concrete
clean line `The dog.`. -/
theorem clean_pipeline_idempotent_amended_witness :
    isCleanLine "The dog.".data = true ∧
    clean_transcription ["The dog.".data] none none none =
      Except.ok ([zeroMeasures (totalWordCount "The dog.".data)],
        "The dog.".data ++ ['\n'], []) :=
  ⟨by decide,
   (clean_pipeline_idempotent_amended "The dog.".data (by decide)).2.2⟩

/-- **C1** counterexample to the claim as frozen: `The dog and the dog.`
consists only of allowed characters and contains no marker pattern
(`remove_markers_and_symbols` and `normalize_sentence` both leave it
unchanged, and the pipeline returns the same text), yet the measures
record returned by the pipeline has `nbRepetitions = 1`, not `0`: the
repetition counter `(\b\w+\b\s*)+\,*(?=.*\1)` of `remove_repetitions`
CASE 3 matches `The dog ` (lookahead: `dog` occurs again later), so "every
marker counter in the returned measures is zero" fails. -/
theorem clean_pipeline_counts_plain_repetition :
    "The dog and the dog.".data.all isCleanChar = true ∧
    remove_markers_and_symbols "The dog and the dog.".data =
      "The dog and the dog.".data ∧
    normalize_sentence "The dog and the dog.".data =
      some "The dog and the dog.".data ∧
    (cleanLine none none "The dog and the dog.".data).2 =
      some "The dog and the dog.".data ∧
    (cleanLine none none "The dog and the dog.".data).1.nbRepetitions = 1 :=
  ⟨by decide, by decide, by decide, by decide, by decide⟩
